import Mathlib

/-!
# Verification of the arger validation pass and parsing state machine

A shallow embedding of the argument-specification library: the value model
(`arger-value.h`), the specification tree (`arger-config.h`), the validation
("burn") pass (`arger-verify.h`) and the runtime token scanner with endpoint
selection (`arger-parser.h`).  C++ exceptions are modelled with
`Except String`; `std::optional` with `Option`; wide strings with `String`;
the `wchar_t abbreviation` fields (where `0` means "none") with
`Option Char`.  `double` payloads are modelled as rationals; IEEE rounding is
outside the model.  The reference-link resolution passes and the
constraint-callback values are not needed by any theorem below and are left
out of the state; configurations used in concrete theorems declare no links
and no constraints, for which those passes are no-ops.
-/

namespace Arger

/-- `uint64_t -> int64_t` conversion (modular, as in C++20). -/
def toInt64 (n : Nat) : Int :=
  let m : Nat := n % 2 ^ 64
  if m < 2 ^ 63 then (m : Int) else (m : Int) - 2 ^ 64

/-- `arger::Primitive` from arger-config.h. -/
inductive Primitive where
  | any
  | inum
  | unum
  | real
  | boolean
deriving DecidableEq, Repr

/-- `arger::EnumEntry`: display name, normal/reduced description, numeric id. -/
structure EnumEntry where
  name : String
  normal : String
  reduced : String
  id : Nat
deriving DecidableEq, Repr

/-- `arger::Type = std::variant<Primitive, Enum>` (named `ArgType` here since
`Type` is reserved in Lean). -/
inductive ArgType where
  | prim (p : Primitive)
  | enum (entries : List EnumEntry)
deriving DecidableEq, Repr

/-- `arger::Value`: tagged union of unsigned, signed, real, boolean, string
and resolved enum value (`arger::EnumValue` carries an id and a name). -/
inductive Value where
  | vUNum (v : Nat)
  | vINum (v : Int)
  | vReal (v : Rat)
  | vBool (b : Bool)
  | vStr (s : String)
  | vEnumV (id : Nat) (name : String)
deriving DecidableEq, Repr

namespace Value

/-- `Value(uint64_t)`. -/
def ofUInt64 (v : Nat) : Value := .vUNum v

/-- `Value(int64_t)`: non-negative signed values are stored as unsigned. -/
def ofInt64 (v : Int) : Value :=
  if 0 ≤ v then .vUNum v.toNat else .vINum v

/-- `Value::isUNum`. -/
def isUNum : Value → Bool
  | .vUNum _ => true
  | _ => false

/-- `Value::isINum` (holds for the signed and the unsigned alternative). -/
def isINum : Value → Bool
  | .vINum _ => true
  | .vUNum _ => true
  | _ => false

/-- `Value::isReal` (holds for the real, signed and unsigned alternative). -/
def isReal : Value → Bool
  | .vReal _ => true
  | .vINum _ => true
  | .vUNum _ => true
  | _ => false

/-- `Value::isBool`. -/
def isBool : Value → Bool
  | .vBool _ => true
  | _ => false

/-- `Value::isStr` (only the string alternative; an enum value is not a str). -/
def isStr : Value → Bool
  | .vStr _ => true
  | _ => false

/-- `Value::unum`: unsigned alternative, or the id of an enum value;
otherwise a `TypeException`. -/
def unum : Value → Except String Nat
  | .vUNum v => .ok v
  | .vEnumV id _ => .ok id
  | _ => .error "arger::Value is not an unsigned-number."

/-- `Value::inum`: the unsigned alternative is cast to `int64_t`, the signed
alternative is returned, an enum value yields its id; otherwise a
`TypeException`. -/
def inum : Value → Except String Int
  | .vUNum v => .ok (toInt64 v)
  | .vINum v => .ok v
  | .vEnumV id _ => .ok (toInt64 id)
  | _ => .error "arger::Value is not a signed-number."

/-- `Value::real`: real, unsigned or signed alternatives convert; otherwise a
`TypeException` (an enum value does not convert). -/
def real : Value → Except String Rat
  | .vReal v => .ok v
  | .vUNum v => .ok (v : Rat)
  | .vINum v => .ok (v : Rat)
  | _ => .error "arger::Value is not a real."

/-- `Value::boolean`. -/
def boolean : Value → Except String Bool
  | .vBool b => .ok b
  | _ => .error "arger::Value is not a boolean."

/-- `Value::str`: the string alternative, or the display name of an enum
value; otherwise a `TypeException`. -/
def str : Value → Except String String
  | .vStr s => .ok s
  | .vEnumV _ name => .ok name
  | _ => .error "arger::Value is not a string."

end Value

/-- `detail::ValidateDefValue` from arger-verify.h: an enum-typed default
must be a string naming one of the entries; a primitive-typed default must
satisfy the corresponding kind predicate. -/
def ValidateDefValue (type : ArgType) (value : Value) : Except String Unit :=
  match type with
  | .enum allowed =>
    match value with
    | .vStr s =>
      if allowed.any (fun e => e.name = s) then .ok ()
      else .error "Default value must be a valid enum-string for the given type."
    | _ => .error "Default value must be a valid enum-string for the given type."
  | .prim p =>
    match p with
    | .boolean =>
      if value.isBool then .ok () else .error "Default value is expected to be a boolean."
    | .real =>
      if value.isReal then .ok () else .error "Default value is expected to be a real."
    | .inum =>
      if value.isINum then .ok () else .error "Default value is expected to be a signed integer."
    | .unum =>
      if value.isUNum then .ok () else .error "Default value is expected to be an unsigned integer."
    | .any => .ok ()

/-- `Parser::fUnpackDefValue` from arger-parser.h: an enum-typed default is
stored as a string (for printing) and is replaced by the resolved id of the
first entry bearing that name.  The fallback branches are unreachable for
defaults that passed `ValidateDefValue` (the source would dereference an
invalid iterator or raise a `TypeException` there). -/
def fUnpackDefValue (value : Value) (type : ArgType) : Value :=
  match type with
  | .prim _ => value
  | .enum list =>
    match value.str with
    | .error _ => value
    | .ok s =>
      match list.find? (fun e => e.name = s) with
      | some e => .vEnumV e.id ""
      | none => value

/-- `detail::SpecialEntry` (help/version entry); the source encodes "no
abbreviation" as `wchar_t 0` and "entry absent" as an empty name, modelled
via `Option` here. -/
structure SpecialEntry where
  name : String
  abbreviation : Option Char
  reducible : Bool
  descNormal : String
  descReduced : String
deriving DecidableEq, Repr

/-- `detail::Positional`. -/
structure PositionalSpec where
  name : String
  type : ArgType
  defValue : Option Value
  descNormal : String
  descReduced : String
deriving DecidableEq, Repr

/-- `detail::Endpoint` (constraint callbacks omitted, see file header). -/
structure EndpointSpec where
  id : Nat
  reqMin : Option Nat
  reqMax : Option Nat
  positionals : List PositionalSpec
  hidden : Bool
  descNormal : String
  descReduced : String
deriving DecidableEq, Repr

/-- `detail::Option` (links and constraints omitted, see file header). -/
structure OptionSpec where
  name : String
  id : Nat
  abbreviation : Option Char
  payloadName : String
  payloadType : ArgType
  payloadDefs : List Value
  reqMin : Option Nat
  reqMax : Option Nat
  hidden : Bool
  descNormal : String
  descReduced : String
deriving DecidableEq, Repr

/-- `detail::Information` (links omitted). -/
structure InfoSpec where
  name : String
  text : String
  reduced : String
deriving DecidableEq, Repr

/-- The non-recursive part of `detail::Group`. -/
structure GroupHead where
  name : String
  abbreviation : Option Char
  id : Nat
  hidden : Bool
deriving DecidableEq, Repr

/-- `detail::Arguments`: requirement bounds, direct positionals, options,
information entries, sub-groups (with the group list's display name), explicit
endpoints with the implicit endpoint's id, and grouping/description data. -/
inductive ArgsSpec where
  | mk (reqMin reqMax : Option Nat)
       (positionals : List PositionalSpec)
       (options : List OptionSpec)
       (information : List InfoSpec)
       (groupsName : String)
       (groups : List (GroupHead × ArgsSpec))
       (endpoints : List EndpointSpec)
       (endpointId : Nat)
       (groupReduced groupNormal : Option Bool)
       (descNormal descReduced : String)

def ArgsSpec.reqMin : ArgsSpec → Option Nat
  | .mk v _ _ _ _ _ _ _ _ _ _ _ _ => v

def ArgsSpec.reqMax : ArgsSpec → Option Nat
  | .mk _ v _ _ _ _ _ _ _ _ _ _ _ => v

def ArgsSpec.positionals : ArgsSpec → List PositionalSpec
  | .mk _ _ v _ _ _ _ _ _ _ _ _ _ => v

def ArgsSpec.options : ArgsSpec → List OptionSpec
  | .mk _ _ _ v _ _ _ _ _ _ _ _ _ => v

def ArgsSpec.information : ArgsSpec → List InfoSpec
  | .mk _ _ _ _ v _ _ _ _ _ _ _ _ => v

def ArgsSpec.groupsName : ArgsSpec → String
  | .mk _ _ _ _ _ v _ _ _ _ _ _ _ => v

def ArgsSpec.groups : ArgsSpec → List (GroupHead × ArgsSpec)
  | .mk _ _ _ _ _ _ v _ _ _ _ _ _ => v

def ArgsSpec.endpoints : ArgsSpec → List EndpointSpec
  | .mk _ _ _ _ _ _ _ v _ _ _ _ _ => v

def ArgsSpec.endpointId : ArgsSpec → Nat
  | .mk _ _ _ _ _ _ _ _ v _ _ _ _ => v

/-- `arger::Config`: the root arguments plus program name, version text and
the special help/version entries (absent entries modelled as `none`). -/
structure ConfigSpec where
  program : String
  versionText : String
  helpEntry : Option SpecialEntry
  versionEntry : Option SpecialEntry
  args : ArgsSpec

/-- `detail::ValidEndpoint` (the computed numeric bracket of one endpoint). -/
structure ValidEndpoint where
  positionals : List PositionalSpec
  id : Nat
  minimumEffective : Nat
  minimumActual : Nat
  maximum : Nat
  hidden : Bool
deriving DecidableEq, Repr

/-- `detail::ValidArguments`: sorted endpoints, the child groups (name,
abbreviation, group id, child node), and the group display name used in
error messages. -/
inductive ValidArguments where
  | mk (endpoints : List ValidEndpoint)
       (sub : List (String × Option Char × Nat × ValidArguments))
       (groupName : String)

def ValidArguments.endpoints : ValidArguments → List ValidEndpoint
  | .mk v _ _ => v

def ValidArguments.sub : ValidArguments → List (String × Option Char × Nat × ValidArguments)
  | .mk _ v _ => v

def ValidArguments.groupName : ValidArguments → String
  | .mk _ _ v => v

/-- `detail::ValidOption`. -/
structure ValidOption where
  name : String
  id : Nat
  abbreviation : Option Char
  payload : Bool
  payloadName : String
  payloadType : ArgType
  payloadDefs : List Value
  minimumEffective : Nat
  minimumActual : Nat
  maximum : Nat
  hidden : Bool
deriving DecidableEq, Repr

/-- The global part of `detail::ValidationState`/`ValidConfig` threaded
through the walk: option map, abbreviation map and the used option-id set. -/
structure VState where
  options : List (String × ValidOption)
  abbreviations : List (Char × ValidOption)
  optionIds : List Nat
deriving DecidableEq, Repr

/-- `detail::ValidConfig` (the fields the parser reads). -/
structure ValidConfig where
  program : String
  versionText : String
  help : Option SpecialEntry
  version : Option SpecialEntry
  options : List (String × ValidOption)
  abbreviations : List (Char × ValidOption)
  root : ValidArguments

/-- The fixed validation context (`state.config`'s immutable fields). -/
structure VCtx where
  program : String
  help : Option SpecialEntry
  version : Option SpecialEntry

def helpReducible : Option SpecialEntry → Bool
  | some h => h.reducible
  | none => false

/-- `detail::ValidateDescription`. -/
def ValidateDescription (help : Option SpecialEntry) (normal reduced : String) : Except String Unit :=
  if normal = "" ∧ reduced ≠ "" then
    .error "Reduced description requires normal description as well."
  else if reduced ≠ "" ∧ ¬ helpReducible help then
    .error "Reduced description requires reduced help to be possible."
  else .ok ()

/-- The entry loop of `detail::ValidateType`. -/
def ValidateEnumEntries (help : Option SpecialEntry) : List EnumEntry → Except String Unit
  | [] => .ok ()
  | e :: rest =>
    if e.normal = "" ∧ e.reduced ≠ "" then
      .error "Reduced description requires normal description as well."
    else if e.reduced ≠ "" ∧ ¬ helpReducible help then
      .error "Reduced description requires reduced help to be possible."
    else ValidateEnumEntries help rest

/-- `detail::ValidateType`. -/
def ValidateType (help : Option SpecialEntry) : ArgType → Except String Unit
  | .prim _ => .ok ()
  | .enum list =>
    if list = [] then .error "Enum must not be empty."
    else ValidateEnumEntries help list

/-- `detail::ValidateSpecialEntry`. -/
def ValidateSpecialEntry (help version : Option SpecialEntry) (name : String)
    (abbreviation : Option Char) : Except String Unit := do
  match help with
  | some h =>
    if name = h.name then throw "Name clashes with help entry name."
    if abbreviation.isSome ∧ abbreviation = h.abbreviation then
      throw "Abbreviation clashes with help entry abbreviation."
  | none => pure ()
  match version with
  | some v =>
    if name = v.name then throw "Name clashes with version entry name."
    if abbreviation.isSome ∧ abbreviation = v.abbreviation then
      throw "Abbreviation clashes with version entry abbreviation."
  | none => pure ()

/-- `detail::ValidateInformation` (reference registration omitted). -/
def ValidateInformation (help : Option SpecialEntry) : List InfoSpec → Except String Unit
  | [] => .ok ()
  | info :: rest =>
    if info.name = "" ∨ info.text = "" then
      .error "Information name and description must not be empty."
    else if info.reduced ≠ "" ∧ ¬ helpReducible help then
      .error "Reduced information requires reduced help to be possible."
    else ValidateInformation help rest

/-- The backward default-walk of `ValidateEndpoint`: starting from
`minimumActual`, decrement while the positional at `min(size, m) - 1` has a
default value. -/
def effectiveMinimum (ps : List PositionalSpec) : Nat → Nat
  | 0 => 0
  | m + 1 =>
    match ps[min ps.length (m + 1) - 1]? with
    | some p => if p.defValue.isSome then effectiveMinimum ps m else m + 1
    | none => m + 1

/-- The positional loop of `ValidateEndpoint` (index `i` runs over the
list). -/
def ValidatePositionals (help : Option SpecialEntry) (minEff : Nat) :
    Nat → List PositionalSpec → Except String Unit
  | _, [] => .ok ()
  | i, p :: rest => do
    if p.name = "" then throw "Positional argument must not have an empty name."
    ValidateType help p.type
    match p.defValue with
    | none => ValidatePositionals help minEff (i + 1) rest
    | some v =>
      do
        ValidateDefValue p.type v
        if i < minEff then
          throw "All positionals up to the minimum must be defaulted once one is defaulted."
        ValidateDescription help p.descNormal p.descReduced
        ValidatePositionals help minEff (i + 1) rest

/-- `detail::ValidateEndpoint`: computes `minimumActual`, `maximum` and
`minimumEffective` and validates the positionals.  `explicitDesc` carries the
description of an explicit endpoint (`nullptr` for the implicit one); the
`hidden` argument is the already-combined hidden flag. -/
def ValidateEndpoint (help : Option SpecialEntry) (positionals : List PositionalSpec)
    (reqMin reqMax : Option Nat) (id : Nat) (explicitDesc : Option (String × String))
    (hidden : Bool) : Except String ValidEndpoint := do
  match explicitDesc with
  | some d => ValidateDescription help d.1 d.2
  | none => pure ()
  if reqMin.isSome ∧ positionals = [] then
    throw "Minimum requires at least one positional to be defined."
  let minActual := reqMin.getD positionals.length
  let maximum ← (match reqMax with
    | none => pure (max minActual positionals.length)
    | some m =>
      if m < minActual then pure 0
      else if m < positionals.length ∧ 0 < m then
        throw "Maximum must be at least the number of positionals."
      else pure m)
  let minEff := effectiveMinimum positionals minActual
  ValidatePositionals help minEff 0 positionals
  pure { positionals := positionals, id := id, minimumEffective := minEff,
         minimumActual := minActual, maximum := maximum, hidden := hidden }

/-- The default-value loop at the end of `detail::ValidateOption`. -/
def ValidateOptionDefs (type : ArgType) : List Value → Except String Unit
  | [] => .ok ()
  | v :: rest => do
    ValidateDefValue type v
    ValidateOptionDefs type rest

/-- The state-free checks at the end of `detail::ValidateOption`
(special-entry clash in program mode, description, payload/flag rules and
default validation), in source order. -/
def ValidateOptionTail (ctx : VCtx) (opt : OptionSpec) (payload : Bool)
    (minActual maxv : Nat) : Except String Unit := do
  if ctx.program ≠ "" then
    ValidateSpecialEntry ctx.help ctx.version opt.name opt.abbreviation
  ValidateDescription ctx.help opt.descNormal opt.descReduced
  if payload then ValidateType ctx.help opt.payloadType
  else if opt.reqMin.isSome ∨ opt.reqMax.isSome then
    throw "Flags cannot have requirements defined."
  else if opt.payloadDefs ≠ [] then
    throw "Default values are not allowed for flags without payload."
  if payload ∧ opt.payloadDefs ≠ [] then
    do
      if opt.payloadDefs.length < minActual then
        throw "Default values for option must not violate its own minimum requirements."
      if 0 < maxv ∧ maxv < opt.payloadDefs.length then
        throw "Default values for option must not violate its own maximum requirements."
      ValidateOptionDefs opt.payloadType opt.payloadDefs

/-- `detail::ValidateOption`: name/abbreviation/id uniqueness against the
global state, requirement normalization, state registration and the
trailing state-free checks. -/
def ValidateOption (ctx : VCtx) (opt : OptionSpec) (ownerHidden : Bool) (st : VState) :
    Except String VState := do
  if opt.name.length ≤ 1 then throw "Option name must at least be two characters long."
  if opt.name.data.head? = some '-' then throw "Option name must not start with a hypen."
  if (st.options.find? (fun p => p.1 = opt.name)).isSome then
    throw "Option names must be unique."
  let payload := opt.payloadName ≠ ""
  let minActual := opt.reqMin.getD 0
  let minEff := if opt.payloadDefs = [] then minActual else 0
  let maxv := (match opt.reqMax with
    | none => max minActual 1
    | some m => if m < minActual then 0 else m)
  let entry : ValidOption :=
    { name := opt.name, id := opt.id, abbreviation := opt.abbreviation, payload := payload,
      payloadName := opt.payloadName, payloadType := opt.payloadType,
      payloadDefs := opt.payloadDefs, minimumEffective := minEff, minimumActual := minActual,
      maximum := maxv, hidden := ownerHidden || opt.hidden }
  let st := { st with options := st.options ++ [(opt.name, entry)] }
  let st ← (match opt.abbreviation with
    | none => pure st
    | some a =>
      if (st.abbreviations.find? (fun p => p.1 = a)).isSome then
        throw "Option abbreviations must be unique."
      else pure { st with abbreviations := st.abbreviations ++ [(a, entry)] })
  if opt.id ∈ st.optionIds then throw "Option ids must be unique."
  let st := { st with optionIds := st.optionIds ++ [opt.id] }
  ValidateOptionTail ctx opt payload minActual maxv
  pure st

/-- The option loop of `ValidateArguments`. -/
def ValidateOptions (ctx : VCtx) (hidden : Bool) :
    VState → List OptionSpec → Except String VState
  | st, [] => pure st
  | st, o :: rest => do
    let st ← ValidateOption ctx o hidden st
    ValidateOptions ctx hidden st rest

/-- The explicit-endpoint loop of `ValidateArguments`. -/
def ValidateEndpointList (help : Option SpecialEntry) (hidden : Bool) :
    List EndpointSpec → Except String (List ValidEndpoint)
  | [] => pure []
  | e :: rest => do
    let v ← ValidateEndpoint help e.positionals e.reqMin e.reqMax e.id
      (some (e.descNormal, e.descReduced)) (hidden || e.hidden)
    let vs ← ValidateEndpointList help hidden rest
    pure (v :: vs)

/-- Insertion step of the endpoint sort. -/
def insertByMinEff (e : ValidEndpoint) : List ValidEndpoint → List ValidEndpoint
  | [] => [e]
  | x :: xs =>
    if e.minimumEffective ≤ x.minimumEffective then e :: x :: xs
    else x :: insertByMinEff e xs

/-- The `std::sort` call on the endpoint list (arger-verify.h lines
380-382), keyed by `minimumEffective`.  `std::sort` leaves the order of
equal keys unspecified; insertion sort is one admissible behaviour. -/
def sortEndpoints : List ValidEndpoint → List ValidEndpoint
  | [] => []
  | e :: rest => insertByMinEff e (sortEndpoints rest)

/-- The adjacent-pair disambiguation check on the sorted endpoint list
(arger-verify.h lines 383-386). -/
def CheckEndpointOverlap : List ValidEndpoint → Except String Unit
  | a :: b :: rest =>
    if b.minimumEffective ≤ a.maximum then
      .error "Endpoint positional effective requirement counts must not overlap in order to ensure each endpoint can be matched uniquely."
    else CheckEndpointOverlap (b :: rest)
  | _ => .ok ()

/-- The leading part of `detail::ValidateArguments` (field setup, grouping
check, group display name, description, information and option
validation); returns the updated state with the node's display name,
resolved view flags and combined hidden flag. -/
def ValidateArgumentsPre (ctx : VCtx) (args : ArgsSpec) (groupHidden hidden rgo ngo : Bool)
    (st : VState) : Except String (VState × String × Bool × Bool × Bool) :=
  match args with
  | .mk _ _ _ options information groupsName _ _ _ groupReduced groupNormal
      descNormal descReduced => do
    let myHidden := hidden || groupHidden
    let rgo2 := groupReduced.getD rgo
    let ngo2 := groupNormal.getD ngo
    if groupReduced.isSome ∧ ¬ helpReducible ctx.help then
      throw "Grouping options for reduced view requires reduced help to be possible."
    let groupName := if groupsName = "" then "mode" else groupsName.toLower
    ValidateDescription ctx.help descNormal descReduced
    ValidateInformation ctx.help information
    let st ← ValidateOptions ctx myHidden st options
    pure (st, groupName, rgo2, ngo2, myHidden)

/-- The endpoint part of `detail::ValidateArguments` (lines 367-386):
implicit-endpoint synthesis or validation of the explicit list, then the
sort by `minimumEffective` and the overlap check. -/
def ValidateNodeEndpoints (help : Option SpecialEntry) (hidden : Bool)
    (reqMin reqMax : Option Nat) (positionals : List PositionalSpec)
    (endpoints : List EndpointSpec) (endpointId : Nat) :
    Except String (List ValidEndpoint) := do
  let eps ← (if endpoints = [] then do
      let e ← ValidateEndpoint help positionals reqMin reqMax endpointId none hidden
      pure [e]
    else do
      if positionals ≠ [] ∨ reqMin.isSome ∨ reqMax.isSome then
        throw "Implicit and explicit endpoints cannot be used in conjunction."
      ValidateEndpointList help hidden endpoints)
  let sorted := sortEndpoints eps
  CheckEndpointOverlap sorted
  pure sorted

/-- The per-group checks of the group loop (naming rules,
sibling-uniqueness against the already registered `acc`, menu-mode
special-entry clash). -/
def ValidateGroupHead (ctx : VCtx)
    (acc : List (String × Option Char × Nat × ValidArguments)) (g : GroupHead) :
    Except String Unit := do
  if g.name.length ≤ 1 then throw "Group name must at least be two characters long."
  if g.name.data.head? = some '-' then throw "Group name must not start with a hypen."
  if (acc.find? (fun e => e.1 = g.name)).isSome then
    throw "Group names within a sub-group must be unique."
  match g.abbreviation with
  | some a =>
    if (acc.find? (fun e => e.2.1 = some a)).isSome then
      throw "Group abbreviations within a sub-group must be unique."
  | none => pure ()
  if ctx.program = "" then
    ValidateSpecialEntry ctx.help ctx.version g.name g.abbreviation

mutual

/-- `detail::ValidateArguments`: validates one node (description,
information, options via `ValidateArgumentsPre`), then either the
sub-groups or the (implicit or explicit) endpoints
(`ValidateNodeEndpoints`).  `groupHidden` is the owning group's hidden flag
(`false` at the root); `rgo`/`ngo` are the inherited group-option view
flags. -/
def ValidateArguments (ctx : VCtx) (args : ArgsSpec) (groupHidden hidden rgo ngo : Bool)
    (st : VState) : Except String (VState × ValidArguments) :=
  match args with
  | .mk reqMin reqMax positionals options information groupsName groups endpoints
      endpointId groupReduced groupNormal descNormal descReduced => do
    let (st, groupName, rgo2, ngo2, myHidden) ← ValidateArgumentsPre ctx
      (.mk reqMin reqMax positionals options information groupsName groups endpoints
        endpointId groupReduced groupNormal descNormal descReduced)
      groupHidden hidden rgo ngo st
    match groups with
    | g0 :: grest => do
      if positionals ≠ [] ∨ endpoints ≠ [] then
        throw "Groups and positional arguments cannot be used in conjunction."
      let (st, sub) ← ValidateGroups ctx myHidden rgo2 ngo2 st [] (g0 :: grest)
      pure (st, .mk [] sub groupName)
    | [] => do
      let sorted ← ValidateNodeEndpoints ctx.help myHidden reqMin reqMax positionals
        endpoints endpointId
      pure (st, .mk sorted [] groupName)

/-- The group loop of `ValidateArguments`: per-group checks
(`ValidateGroupHead`), then recursion into the group's body. -/
def ValidateGroups (ctx : VCtx) (parentHidden rgo ngo : Bool) (st : VState)
    (acc : List (String × Option Char × Nat × ValidArguments))
    (gs : List (GroupHead × ArgsSpec)) :
    Except String (VState × List (String × Option Char × Nat × ValidArguments)) :=
  match gs with
  | [] => pure (st, acc)
  | (g, body) :: rest => do
    ValidateGroupHead ctx acc g
    let (st2, child) ← ValidateArguments ctx body g.hidden parentHidden rgo ngo st
    ValidateGroups ctx parentHidden rgo ngo st2 (acc ++ [(g.name, g.abbreviation, g.id, child)]) rest

end

/-- `detail::ValidateConfig`: special-entry validation, then the root
arguments (the link-resolution passes are no-ops for configurations without
links, see the file header). -/
def ValidateConfig (cfg : ConfigSpec) : Except String ValidConfig := do
  match cfg.helpEntry with
  | some h => do
    if h.name.length ≤ 1 then throw "Help entry name must at least be two characters long."
    if ((cfg.versionEntry.map (fun v => v.name)).getD "") = h.name then
      throw "Help entry and version entry cannot have the same name."
    if h.reducible ∧ h.abbreviation = none then
      throw "Reducible help entry requires a defined abbreviarion."
    match cfg.versionEntry with
    | some v =>
      if h.abbreviation.isSome ∧ h.abbreviation = v.abbreviation then
        throw "Help entry and version entry cannot have the same abbreviation."
    | none => pure ()
    ValidateDescription cfg.helpEntry h.descNormal h.descReduced
  | none => pure ()
  match cfg.versionEntry with
  | some v => do
    if v.name.length ≤ 1 then throw "Version entry name must at least be two characters long."
    if cfg.versionText = "" then throw "Version string must be set when using a version entry."
    ValidateDescription cfg.helpEntry v.descNormal v.descReduced
  | none => pure ()
  let ctx : VCtx := { program := cfg.program, help := cfg.helpEntry, version := cfg.versionEntry }
  let (st, root) ← ValidateArguments ctx cfg.args false false false true
    { options := [], abbreviations := [], optionIds := [] }
  pure { program := cfg.program, versionText := cfg.versionText, help := cfg.helpEntry,
         version := cfg.versionEntry, options := st.options,
         abbreviations := st.abbreviations, root := root }

/-- `detail::PrintOption`. -/
inductive PrintOption where
  | none
  | reduced
  | full
deriving DecidableEq, Repr

/-- The mutable scanner state of `detail::Parser` together with the
accumulated `arger::Parsed` fields touched during the scan. -/
structure ScanState where
  topMost : ValidArguments
  flags : List Nat
  options : List (Nat × List Value)
  positionals : List Value
  groupIds : List Nat
  deferred : Option String
  printHelp : PrintOption
  printVersion : Bool
  positionalLocked : Bool

/-- `if (pDeferred.empty()) str::BuildTo(pDeferred, ...)`: only the first
scan-time error is recorded. -/
def deferOnce (st : ScanState) (msg : String) : ScanState :=
  match st.deferred with
  | some _ => st
  | none => { st with deferred := some msg }

def optionsLookup (m : List (Nat × List Value)) (id : Nat) : Option (List Value) :=
  (m.find? (fun p => p.1 = id)).map (fun p => p.2)

/-- `pParsed.pOptions.insert({id, { {}, 0 }})` when the id is absent. -/
def optionsEnsure (m : List (Nat × List Value)) (id : Nat) : List (Nat × List Value) :=
  if (m.find? (fun p => p.1 = id)).isSome then m else m ++ [(id, [])]

def optionsSet : List (Nat × List Value) → Nat → List Value → List (Nat × List Value)
  | [], _, _ => []
  | (k, old) :: rest, id, vs =>
    if k = id then (k, vs) :: rest else (k, old) :: optionsSet rest id vs

/-- `pParsed.pFlags.insert(id)`. -/
def flagsInsert (l : List Nat) (id : Nat) : List Nat :=
  if id ∈ l then l else l ++ [id]

/-- The per-entry part of `Parser::fParseOptional` (arger-parser.h lines
92-115): flags are marked as seen; payload options consume the inline
payload or the next raw token exactly once per option token, and a payload
already consumed (or impossible) clears the collected values ("forgotten").
Returns the state, the remaining tokens and the updated `payloadUsed`. -/
def applyOptionEntry (st : ScanState) (rest : List String) (payload : String)
    (hasPayload payloadUsed : Bool) (entry : ValidOption) : ScanState × List String × Bool :=
  if ¬ entry.payload then
    ({ st with flags := flagsInsert st.flags entry.id }, rest, payloadUsed)
  else
    let m := optionsEnsure st.options entry.id
    if payloadUsed ∨ (¬ hasPayload ∧ rest = []) then
      ({ st with options := optionsSet m entry.id [] }, rest, payloadUsed)
    else if hasPayload then
      ({ st with options := optionsSet m entry.id ((optionsLookup m entry.id).getD [] ++ [Value.vStr payload]) },
        rest, true)
    else
      match rest with
      | t :: rest2 =>
        ({ st with options := optionsSet m entry.id ((optionsLookup m entry.id).getD [] ++ [Value.vStr t]) },
          rest2, true)
      | [] => (st, rest, payloadUsed)

def specialAbbrevIs (e : Option SpecialEntry) (c : Char) : Bool :=
  match e with
  | some h => h.abbreviation = some c
  | none => false

def specialNameIs (e : Option SpecialEntry) (s : String) : Bool :=
  match e with
  | some h => h.name = s
  | none => false

/-- The abbreviation-run loop of `Parser::fParseOptional` (`fullName`
false): help/version abbreviations (program mode only), then option
abbreviations, with unknown characters deferred. -/
def fParseAbbrevChars (cfg : ValidConfig) (payload : String) (hasPayload : Bool) :
    ScanState → List String → Bool → List Char → ScanState × List String × Bool
  | st, rest, payloadUsed, [] => (st, rest, payloadUsed)
  | st, rest, payloadUsed, c :: cs =>
    if cfg.program ≠ "" ∧ specialAbbrevIs cfg.help c then
      let st := if st.printHelp ≠ .full then { st with printHelp := .reduced } else st
      fParseAbbrevChars cfg payload hasPayload st rest payloadUsed cs
    else if cfg.program ≠ "" ∧ specialAbbrevIs cfg.version c then
      fParseAbbrevChars cfg payload hasPayload { st with printVersion := true } rest payloadUsed cs
    else
      match cfg.abbreviations.find? (fun p => p.1 = c) with
      | none =>
        fParseAbbrevChars cfg payload hasPayload
          (deferOnce st ("Unknown option abbreviation [" ++ String.singleton c ++ "] encountered."))
          rest payloadUsed cs
      | some pr =>
        let r := applyOptionEntry st rest payload hasPayload payloadUsed pr.2
        fParseAbbrevChars cfg payload hasPayload r.1 r.2.1 r.2.2 cs

/-- `Parser::fParseOptional`: full-name help/version match, full-name option
lookup (a failed lookup re-runs the loop body without further effect, so it
is modelled once), or the abbreviation run; finally an inline payload that
was never consumed is deferred. -/
def fParseOptional (cfg : ValidConfig) (st : ScanState) (rest : List String)
    (arg : String) (payload : String) (fullName hasPayload : Bool) : ScanState × List String :=
  let r : ScanState × List String × Bool :=
    if fullName then
      if cfg.program ≠ "" ∧ specialNameIs cfg.help arg then
        ({ st with printHelp := .full }, rest, false)
      else if cfg.program ≠ "" ∧ specialNameIs cfg.version arg then
        ({ st with printVersion := true }, rest, false)
      else if arg = "" then (st, rest, false)
      else
        match cfg.options.find? (fun p => p.1 = arg) with
        | none => (deferOnce st ("Unknown option [" ++ arg ++ "] encountered."), rest, false)
        | some pr => applyOptionEntry st rest payload hasPayload false pr.2
    else fParseAbbrevChars cfg payload hasPayload st rest false arg.data
  let st2 := if hasPayload ∧ r.2.2 = false then
      deferOnce r.1 ("Value [" ++ payload ++ "] not used by option.")
    else r.1
  (st2, r.2.1)

/-- The option-token branch of `Parser::parse` (lines 327-352): the `--`
positional lock, the inline-payload split at the first `=` past the leading
hyphen, and the long/short dispatch. -/
def handleDashToken (cfg : ValidConfig) (st : ScanState) (t : String) (rest : List String) :
    ScanState × List String :=
  if t = "--" then ({ st with positionalLocked := true }, rest)
  else
    let body := t.data.drop 1
    let eqIdx := body.findIdx? (fun c => c = '=')
    let hasPayload := eqIdx.isSome
    let payload := match eqIdx with
      | some i => String.mk (body.drop (i + 1))
      | none => ""
    let beforeEq := match eqIdx with
      | some i => body.take i
      | none => body
    let fullName := t.data.length > 2 ∧ t.data[1]? = some '-'
    let arg := if fullName then String.mk (beforeEq.drop 1) else String.mk beforeEq
    fParseOptional cfg st rest arg payload fullName hasPayload

/-- Child-group lookup: by name in the `sub` map, then by single-character
abbreviation (`'\0'` for longer tokens, which never matches). -/
def subLookup (sub : List (String × Option Char × Nat × ValidArguments)) (t : String) :
    Option (String × Option Char × Nat × ValidArguments) :=
  match sub.find? (fun e => e.1 = t) with
  | some e => some e
  | none =>
    match t.data with
    | [c] => sub.find? (fun e => e.2.1 = some c)
    | _ => none

/-- The group-selection branch of `Parser::parse` (lines 355-374): child
lookup by name, then by single-character abbreviation; an unmatched token is
deferred as an unknown group. -/
def handleGroupToken (cfg : ValidConfig) (st : ScanState) (t : String) (rest : List String) :
    ScanState × List String :=
  match subLookup st.topMost.sub t with
  | some e =>
    ({ st with topMost := e.2.2.2, groupIds := st.groupIds ++ [e.2.2.1] }, rest)
  | none =>
    (deferOnce st ("Unknown " ++ st.topMost.groupName ++ " [" ++ t ++ "] encountered."), rest)

/-- The non-special part of the scan loop body: option tokens (when not
positional-locked), then group selection or positional collection. -/
def stepOrdinary (cfg : ValidConfig) (st : ScanState) (t : String) (rest : List String) :
    ScanState × List String :=
  if ¬ st.positionalLocked ∧ t.data.head? = some '-' then handleDashToken cfg st t rest
  else if st.topMost.endpoints = [] then handleGroupToken cfg st t rest
  else ({ st with positionals := st.positionals ++ [Value.vStr t] }, rest)

/-- The menu-mode help/version group match of `Parser::parse` (lines
315-324): a token of length one matches the abbreviation, any other token
matches the name. -/
def specialGroupMatch (e : Option SpecialEntry) (t : String) : Bool :=
  match t.data with
  | [c] => specialAbbrevIs e c
  | _ => specialNameIs e t

/-- One iteration of the scan loop of `Parser::parse`: in menu mode, while
no positional has been collected, help/version group tokens short-circuit;
otherwise the token is handled ordinarily. -/
def stepToken (cfg : ValidConfig) (st : ScanState) (t : String) (rest : List String) :
    ScanState × List String :=
  if cfg.program = "" ∧ st.positionals = [] then
    if specialGroupMatch cfg.help t then
      ({ st with printHelp := if t.length > 1 ∨ st.printHelp = .full then .full else .reduced }, rest)
    else if specialGroupMatch cfg.version t then
      ({ st with printVersion := true }, rest)
    else stepOrdinary cfg st t rest
  else stepOrdinary cfg st t rest

theorem applyOptionEntry_rest_le (st : ScanState) (rest : List String) (payload : String)
    (hasPayload payloadUsed : Bool) (entry : ValidOption) :
    (applyOptionEntry st rest payload hasPayload payloadUsed entry).2.1.length ≤ rest.length := by
  unfold applyOptionEntry
  repeat' split
  all_goals simp_all
  all_goals omega

theorem fParseAbbrevChars_rest_le (cfg : ValidConfig) (payload : String) (hasPayload : Bool)
    (chars : List Char) :
    ∀ st rest payloadUsed,
      (fParseAbbrevChars cfg payload hasPayload st rest payloadUsed chars).2.1.length ≤ rest.length := by
  induction chars with
  | nil => intro st rest payloadUsed; simp [fParseAbbrevChars]
  | cons c cs ih =>
    intro st rest payloadUsed
    unfold fParseAbbrevChars
    split
    · exact ih _ _ _
    · split
      · exact ih _ _ _
      · split
        · exact ih _ _ _
        · rename_i pr heq
          dsimp only
          have h1 := applyOptionEntry_rest_le st rest payload hasPayload payloadUsed pr.2
          have h2 := ih (applyOptionEntry st rest payload hasPayload payloadUsed pr.2).1
            (applyOptionEntry st rest payload hasPayload payloadUsed pr.2).2.1
            (applyOptionEntry st rest payload hasPayload payloadUsed pr.2).2.2
          omega

theorem fParseOptional_rest_le (cfg : ValidConfig) (st : ScanState) (rest : List String)
    (arg payload : String) (fullName hasPayload : Bool) :
    (fParseOptional cfg st rest arg payload fullName hasPayload).2.length ≤ rest.length := by
  have hab := fParseAbbrevChars_rest_le cfg payload hasPayload arg.data st rest false
  unfold fParseOptional
  dsimp only
  split
  · split
    · simp
    · split
      · simp
      · split
        · simp
        · split
          · simp
          · exact applyOptionEntry_rest_le st rest payload hasPayload false _
  · exact hab

theorem handleDashToken_rest_le (cfg : ValidConfig) (st : ScanState) (t : String)
    (rest : List String) :
    (handleDashToken cfg st t rest).2.length ≤ rest.length := by
  unfold handleDashToken
  split
  · simp
  · exact fParseOptional_rest_le cfg st rest _ _ _ _

theorem stepToken_rest_le (cfg : ValidConfig) (st : ScanState) (t : String) (rest : List String) :
    (stepToken cfg st t rest).2.length ≤ rest.length := by
  have hd := handleDashToken_rest_le cfg st t rest
  unfold stepToken stepOrdinary handleGroupToken
  repeat' split
  all_goals simp_all

/-- The scan loop of `Parser::parse` (lines 311-380). -/
def scanTokens (cfg : ValidConfig) (st : ScanState) (toks : List String) : ScanState :=
  match toks with
  | [] => st
  | t :: rest =>
    scanTokens cfg (stepToken cfg st t rest).1 (stepToken cfg st t rest).2
termination_by toks.length
decreasing_by
  have := stepToken_rest_le cfg st t rest
  simp
  omega

/-- The decision made directly after the scan (lines 382-394): a requested
print wins, then a deferred error, otherwise verification proceeds. -/
inductive PostScan where
  | printRequested (text : String)
  | parseError (msg : String)
  | proceed (st : ScanState)

/-- `detail::BaseBuilder`: the program display name is the suffix of the
first argument after the last path separator, falling back to the configured
program name when that suffix is empty. -/
def programNameFrom (firstArg cfgProgram : String) : String :=
  let suffix := String.mk (firstArg.data.reverse.takeWhile (fun c => c ≠ '/' ∧ c ≠ '\\')).reverse
  if suffix = "" then cfgProgram else suffix

/-- `BaseBuilder::buildVersionString`: the bare version text in menu mode,
otherwise prefixed by the program display name (the empty-program throw is
unreachable for validated program-mode configurations). -/
def renderVersion (cfg : ValidConfig) (prog : String) : String :=
  if cfg.program = "" then cfg.versionText
  else prog ++ " " ++ cfg.versionText

/-- `arger::NumCharsHelpLeft` (arger.h line 315). -/
def NumCharsHelpLeft : Nat := 32

/-- `arger::MinNumCharsRight` (arger-help.h line 12). -/
def MinNumCharsRight : Nat := 8

/-- `arger::NumCharsHelp` (arger.h line 316), the `lineLength` default of
`arger::Parse`. -/
def NumCharsHelp : Nat := 100

/-- The buffer-facing state of `detail::HelpBuilder` (arger-help.h lines
58-80): the output under construction, the column on the current line, the
line width and the pending run of uncommitted whitespace. -/
structure HelpState where
  buffer : String
  position : Nat
  numChars : Nat
  openWhiteSpace : Nat

/-- A run of `n` spaces (`pBuffer.append(n, ' ')`). -/
def spacesOf (n : Nat) : String :=
  String.mk (List.replicate n ' ')

/-- `HelpBuilder::fAddNewLine` (arger-help.h lines 83-92). -/
def fAddNewLine (st : HelpState) (emptyLine : Bool) : HelpState :=
  if st.buffer = "" then st
  else
    let st := if st.buffer.data.getLast? ≠ some '\n'
      then { st with buffer := st.buffer ++ "\n" } else st
    let st := if emptyLine then { st with buffer := st.buffer ++ "\n" } else st
    { st with position := 0, openWhiteSpace := 0 }

/-- `HelpBuilder::fAddToken` (arger-help.h lines 93-101). -/
def fAddToken (st : HelpState) (add : String) : HelpState :=
  let st := if 0 < st.position ∧ st.numChars < st.position + add.length
    then { st with buffer := st.buffer ++ "\n", position := 0 } else st
  { st with
    buffer := st.buffer ++ add, position := st.position + add.length,
    openWhiteSpace := 0 }

/-- `HelpBuilder::fAddSpacedToken` (arger-help.h lines 103-115). -/
def fAddSpacedToken (st : HelpState) (add : String) : HelpState :=
  let st := if 0 < st.position then
      (if st.numChars < st.position + 1 + add.length then
        { st with buffer := st.buffer ++ "\n", position := 0 }
      else { st with buffer := st.buffer ++ " ", position := st.position + 1 })
    else st
  fAddToken st add

/-- The flush step of `HelpBuilder::fAddString` (arger-help.h lines
141-158): on overflow the pending whitespace becomes a line break with
re-indentation, otherwise it is committed; then the collected printable
token is appended. -/
def fAddStringFlush (st : HelpState) (offset : Nat) (tokenPrint : String) : HelpState :=
  let st :=
    if (offset < st.position ∨ 0 < st.openWhiteSpace)
        ∧ st.numChars < st.position + st.openWhiteSpace + tokenPrint.length then
      { st with buffer := st.buffer ++ "\n" ++ spacesOf offset, position := offset }
    else
      { st with
        buffer := st.buffer ++ spacesOf st.openWhiteSpace,
        position := st.position + st.openWhiteSpace }
  { st with
    buffer := st.buffer ++ tokenPrint, position := st.position + tokenPrint.length,
    openWhiteSpace := 0 }

/-- The character loop of `HelpBuilder::fAddString` (arger-help.h lines
133-171): printable characters accumulate in `tokenPrint`; a whitespace
character (and the end of the string) flushes the pending token, then a
newline re-indents, a tab opens four columns of whitespace and any other
whitespace one. -/
def fAddStringLoop (offset : Nat) : HelpState → String → Bool → List Char → HelpState
  | st, tokenPrint, isWhitespace, [] =>
    if ¬ isWhitespace then fAddStringFlush st offset tokenPrint else st
  | st, tokenPrint, isWhitespace, c :: cs =>
    if ¬ c.isWhitespace then
      fAddStringLoop offset st (tokenPrint ++ String.singleton c) false cs
    else
      let st := if ¬ isWhitespace then fAddStringFlush st offset tokenPrint else st
      if c = '\n' then
        fAddStringLoop offset
          { st with buffer := st.buffer ++ "\n" ++ spacesOf offset, position := offset }
          "" true cs
      else if c = '\t' then
        fAddStringLoop offset { st with openWhiteSpace := st.openWhiteSpace + 4 } "" true cs
      else
        fAddStringLoop offset { st with openWhiteSpace := st.openWhiteSpace + 1 } "" true cs

/-- `HelpBuilder::fAddString` (arger-help.h lines 116-172): initial
indentation to `offset` (breaking the line when already past it), then the
word-wrapping character loop with the auto-break indentation added to the
offset. -/
def fAddString (st : HelpState) (add : String) (offset indentAutoBreaks : Nat) : HelpState :=
  let st :=
    if 0 < offset then
      let st := if offset ≤ st.position + st.openWhiteSpace then
          { st with buffer := st.buffer ++ "\n", position := 0 } else st
      { st with buffer := st.buffer ++ spacesOf (offset - st.position), position := offset }
    else st
  let offset2 := if 0 < offset then offset + indentAutoBreaks else offset
  fAddStringLoop offset2 { st with openWhiteSpace := 0 } "" true add.data

/-- One buffer emission of the help formatter: every write that
`buildHelpString` performs on the output goes through exactly one of the
four primitives above (`pBuffer` is touched nowhere else in
arger-help.h). -/
inductive HelpOp where
  | newLine (emptyLine : Bool)
  | token (add : String)
  | spacedToken (add : String)
  | text (add : String) (offset indentAutoBreaks : Nat)

def runHelpOp (st : HelpState) : HelpOp → HelpState
  | .newLine e => fAddNewLine st e
  | .token a => fAddToken st a
  | .spacedToken a => fAddSpacedToken st a
  | .text a o i => fAddString st a o i

def runHelpOps : HelpState → List HelpOp → HelpState
  | st, [] => st
  | st, op :: ops => runHelpOps (runHelpOp st op) ops

/-- The `HelpBuilder` constructor (arger-help.h lines 78-80) with the
empty starting buffer. -/
def helpInit (numChars : Nat) : HelpState :=
  { buffer := "", position := 0,
    numChars := max (NumCharsHelpLeft + MinNumCharsRight) numChars, openWhiteSpace := 0 }

/-- The first emissions of `buildHelpString` (arger-help.h lines 593-600
and 309-313): the hidden-walk of lines 595-596 does not touch the buffer,
and `fBuildUsage` starts by emitting the usage lead token, followed in
program mode by the program display name. -/
def fBuildUsageHead (cfg : ValidConfig) (prog : String) (numChars : Nat) : HelpState :=
  let st := fAddToken (helpInit numChars) (if cfg.program = "" then "Input>" else "Usage: ")
  if cfg.program ≠ "" then fAddToken st prog else st

/-- The emissions of `buildHelpString` after the usage head (the rest of
`fBuildUsage`, then `fBuildGroupDescription`, `fBuildGroups`,
`fBuildEndpoints`, `fBuildOptions` twice and `fBuildInformation`,
arger-help.h lines 598-613).  They render descriptive content (group and
option listings, descriptions, information entries) that this model does
not carry, so they are abstracted to the empty emission list; every
property relied upon downstream — non-emptiness of the produced text — is
proven for an arbitrary emission list over the translated primitives
(`runHelpOps_buffer_le`), so no property of this abstraction carries a
proof. -/
def helpTailOps (_cfg : ValidConfig) (_reduced : Bool) : List HelpOp := []

/-- `HelpBuilder::buildHelpString` (arger-help.h lines 593-619) at the
`lineLength` default of `arger::Parse`: the usage-head emissions followed
by the remaining emissions, returning the final buffer. -/
def renderHelp (cfg : ValidConfig) (prog : String) (reduced : Bool) : String :=
  (runHelpOps (fBuildUsageHead cfg prog NumCharsHelp) (helpTailOps cfg reduced)).buffer

/-- Lines 382-394 of `Parser::parse`: build the version and/or help text,
raise `PrintMessage` when non-empty, else raise the deferred error, else
proceed to verification. -/
def postScan (cfg : ValidConfig) (prog : String) (st : ScanState) : PostScan :=
  let print1 := if st.printVersion then renderVersion cfg prog else ""
  let reduced : Bool := (match cfg.help with
    | some h => decide (st.printHelp = PrintOption.reduced) && h.reducible
    | none => false)
  let print2 :=
    if st.printHelp ≠ PrintOption.none then
      (if print1 = "" then "" else print1 ++ "\n\n") ++ renderHelp cfg prog reduced
    else print1
  if print2 ≠ "" then .printRequested print2
  else
    match st.deferred with
    | some e => .parseError e
    | none => .proceed st

def initialScanState (cfg : ValidConfig) : ScanState :=
  { topMost := cfg.root, flags := [], options := [], positionals := [], groupIds := [],
    deferred := none, printHelp := PrintOption.none, printVersion := false,
    positionalLocked := false }

/-- The overall result of `arger::Parse` up to the point where positional
and option verification would start (`PostScan.proceed`). -/
inductive ParseOutcome where
  | configError (msg : String)
  | printRequested (text : String)
  | parseError (msg : String)
  | proceed (st : ScanState)

/-- `Parser::parse`: validate, pop the program-name argument (program mode
only), scan, decide. -/
def parse (cfg : ConfigSpec) (args : List String) : ParseOutcome :=
  match ValidateConfig cfg with
  | .error e => .configError e
  | .ok vc =>
    let firstAndRest : String × List String :=
      match args with
      | [] => ("", [])
      | a :: rest => if cfg.program = "" then ("", a :: rest) else (a, rest)
    let prog := programNameFrom firstAndRest.1 cfg.program
    match postScan vc prog (scanTokens vc (initialScanState vc) firstAndRest.2) with
    | .printRequested s => .printRequested s
    | .parseError e => .parseError e
    | .proceed st => .proceed st

/-- The endpoint-selection loop of `Parser::fVerifyPositional`
(arger-parser.h lines 194-203), scanning the sorted endpoint list for the
supplied positional count `n`. -/
def selectLoop (n : Nat) : ValidEndpoint → List ValidEndpoint → ValidEndpoint
  | cur, [] => cur
  | cur, e :: rest =>
    if e.minimumEffective ≤ n then selectLoop n e rest
    else if cur.maximum < n then e
    else cur

/-- Endpoint selection of `Parser::fVerifyPositional`; `none` corresponds to
the "`<group>` missing." `ParsingException` raised for an unresolved group
(lines 189-190). -/
def selectEndpoint (endpoints : List ValidEndpoint) (n : Nat) : Option ValidEndpoint :=
  match endpoints with
  | [] => none
  | e :: rest => some (selectLoop n e rest)

/-- Companion of the abbreviation run: the scan-time error events it
raises, in encounter order — one per character that is neither a special
abbreviation (program mode) nor a declared option abbreviation. -/
def abbrevErrors (cfg : ValidConfig) (cs : List Char) : List String :=
  cs.filterMap (fun c =>
    if cfg.program ≠ "" ∧ specialAbbrevIs cfg.help c then none
    else if cfg.program ≠ "" ∧ specialAbbrevIs cfg.version c then none
    else
      match cfg.abbreviations.find? (fun p => p.1 = c) with
      | some _ => none
      | none => some ("Unknown option abbreviation [" ++ String.singleton c ++ "] encountered."))

/-- Companion of `fParseOptional`: its scan-time error events in encounter
order — the unknown-option-name event or the per-character abbreviation
events, followed by the unused-inline-payload event. -/
def fParseOptionalErrors (cfg : ValidConfig) (st : ScanState) (rest : List String)
    (arg payload : String) (fullName hasPayload : Bool) : List String :=
  let r : ScanState × List String × Bool :=
    if fullName then
      if cfg.program ≠ "" ∧ specialNameIs cfg.help arg then
        ({ st with printHelp := .full }, rest, false)
      else if cfg.program ≠ "" ∧ specialNameIs cfg.version arg then
        ({ st with printVersion := true }, rest, false)
      else if arg = "" then (st, rest, false)
      else
        match cfg.options.find? (fun p => p.1 = arg) with
        | none => (deferOnce st ("Unknown option [" ++ arg ++ "] encountered."), rest, false)
        | some pr => applyOptionEntry st rest payload hasPayload false pr.2
    else fParseAbbrevChars cfg payload hasPayload st rest false arg.data
  let base : List String :=
    if fullName then
      if cfg.program ≠ "" ∧ specialNameIs cfg.help arg then []
      else if cfg.program ≠ "" ∧ specialNameIs cfg.version arg then []
      else if arg = "" then []
      else
        match cfg.options.find? (fun p => p.1 = arg) with
        | none => ["Unknown option [" ++ arg ++ "] encountered."]
        | some _ => []
    else abbrevErrors cfg arg.data
  base ++ (if hasPayload ∧ r.2.2 = false then
      ["Value [" ++ payload ++ "] not used by option."]
    else [])

/-- Companion of `handleDashToken`: its scan-time error events. -/
def handleDashTokenErrors (cfg : ValidConfig) (st : ScanState) (t : String)
    (rest : List String) : List String :=
  if t = "--" then []
  else
    let body := t.data.drop 1
    let eqIdx := body.findIdx? (fun c => c = '=')
    let hasPayload := eqIdx.isSome
    let payload := match eqIdx with
      | some i => String.mk (body.drop (i + 1))
      | none => ""
    let beforeEq := match eqIdx with
      | some i => body.take i
      | none => body
    let fullName := t.data.length > 2 ∧ t.data[1]? = some '-'
    let arg := if fullName then String.mk (beforeEq.drop 1) else String.mk beforeEq
    fParseOptionalErrors cfg st rest arg payload fullName hasPayload

/-- Companion of `handleGroupToken`: the unknown-group event. -/
def handleGroupTokenErrors (st : ScanState) (t : String) : List String :=
  match subLookup st.topMost.sub t with
  | some _ => []
  | none => ["Unknown " ++ st.topMost.groupName ++ " [" ++ t ++ "] encountered."]

/-- Companion of `stepOrdinary`: its scan-time error events. -/
def stepOrdinaryErrors (cfg : ValidConfig) (st : ScanState) (t : String)
    (rest : List String) : List String :=
  if ¬ st.positionalLocked ∧ t.data.head? = some '-' then handleDashTokenErrors cfg st t rest
  else if st.topMost.endpoints = [] then handleGroupTokenErrors st t
  else []

/-- Companion of `stepToken`: its scan-time error events. -/
def stepErrors (cfg : ValidConfig) (st : ScanState) (t : String) (rest : List String) :
    List String :=
  if cfg.program = "" ∧ st.positionals = [] then
    if specialGroupMatch cfg.help t then []
    else if specialGroupMatch cfg.version t then []
    else stepOrdinaryErrors cfg st t rest
  else stepOrdinaryErrors cfg st t rest

/-- Companion of the scan loop: every scan-time error event of the whole
scan, in encounter order (unknown option names, unknown option
abbreviations, unused inline payloads and unknown group tokens). -/
def scanErrors (cfg : ValidConfig) (st : ScanState) (toks : List String) : List String :=
  match toks with
  | [] => []
  | t :: rest =>
    stepErrors cfg st t rest
      ++ scanErrors cfg (stepToken cfg st t rest).1 (stepToken cfg st t rest).2
termination_by toks.length
decreasing_by
  have := stepToken_rest_le cfg st t rest
  simp
  omega

/-! ## Claim C7: round-trip of enum defaults -/

/-- C7: for an enum-typed payload whose default value is the name of one of
the enum's entries, `ValidateDefValue` accepts the default, and the
backfill unpacking (`fUnpackDefValue`, applied at every default-backfill
site) replaces it by the resolved numeric id of exactly the entry bearing
that name. -/
theorem c7_enum_default_roundtrip (entries : List EnumEntry) (entry : EnumEntry) (s : String)
    (hmem : entry ∈ entries) (hname : entry.name = s)
    (huniq : ∀ e ∈ entries, e.name = s → e = entry) :
    ValidateDefValue (.enum entries) (.vStr s) = .ok ()
    ∧ fUnpackDefValue (.vStr s) (.enum entries) = .vEnumV entry.id "" := by
  have hfind : entries.find? (fun e => decide (e.name = s)) = some entry := by
    induction entries with
    | nil => cases hmem
    | cons a rest ih =>
      by_cases hpa : a.name = s
      · have ha : a = entry := huniq a (List.mem_cons_self a rest) hpa
        subst ha
        simp [List.find?, hpa]
      · have hmem2 : entry ∈ rest := by
          cases hmem with
          | head => exact absurd hname hpa
          | tail _ h => exact h
        have := ih hmem2 (fun e he hn => huniq e (List.mem_cons_of_mem a he) hn)
        simp [List.find?, hpa, this]
  constructor
  · have hany : entries.any (fun e => decide (e.name = s)) = true := by
      rw [List.any_eq_true]
      exact ⟨entry, hmem, by simp [hname]⟩
    simp [ValidateDefValue, hany]
  · simp [fUnpackDefValue, Value.str, hfind]

/-- C7 witness: a concrete two-entry enum with a default naming the second
entry resolves to that entry's id. -/
theorem c7_enum_default_roundtrip_witness :
    ValidateDefValue (.enum [⟨"red", "", "", 0⟩, ⟨"blue", "", "", 5⟩]) (.vStr "blue") = .ok ()
    ∧ fUnpackDefValue (.vStr "blue") (.enum [⟨"red", "", "", 0⟩, ⟨"blue", "", "", 5⟩])
      = .vEnumV 5 "" :=
  c7_enum_default_roundtrip [⟨"red", "", "", 0⟩, ⟨"blue", "", "", 5⟩] ⟨"blue", "", "", 5⟩ "blue"
    (by decide) rfl (by decide)

/-! ## Claim C8: Value conversion and kind-exclusivity rules -/

/-- C8 counterexample: the claim states that accessing a `Value` holding a
resolved-enum-id through the numeric accessors `unum`/`inum` fails with a
`TypeMismatch` error; in the code both succeed and yield the id (and `str`
succeeds as well, yielding the entry name). -/
theorem c8_enum_value_numeric_access_succeeds :
    (Value.vEnumV 3 "color").unum = .ok 3
    ∧ (Value.vEnumV 3 "color").inum = .ok 3
    ∧ (Value.vEnumV 3 "color").str = .ok "color" := by
  refine ⟨rfl, ?_, rfl⟩
  show Except.ok (toInt64 3) = Except.ok 3
  norm_num [toInt64]

/-- C8 (amended): string and the numeric kinds are mutually exclusive
(numeric accessors fail on a string, `str` fails on numerics), and
unsigned/signed/real inter-convert where the magnitude allows (an unsigned
value below `2^63` reads back exactly through `inum`); but a resolved
enum-id is readable through `unum` and `inum` (yielding the id, the id cast
to `int64_t` for `inum`) and through `str` (yielding the entry name), and
fails only through `real` and `boolean`. -/
theorem c8_value_kind_rules (v : Value) :
    ((v.isUNum || v.isINum || v.isReal) = true → ∃ e, v.str = .error e)
    ∧ (v.isStr = true →
        (∃ e, v.unum = .error e) ∧ (∃ e, v.inum = .error e) ∧ (∃ e, v.real = .error e))
    ∧ (∀ id name, v = .vEnumV id name →
        v.unum = .ok id ∧ v.inum = .ok (toInt64 id) ∧ (∃ e, v.real = .error e)
        ∧ v.str = .ok name)
    ∧ (∀ u, v = .vUNum u →
        v.unum = .ok u ∧ v.inum = .ok (toInt64 u) ∧ (u < 2 ^ 63 → v.inum = .ok u)
        ∧ v.real = .ok (u : Rat))
    ∧ (∀ i, v = .vINum i →
        v.inum = .ok i ∧ v.real = .ok (i : Rat) ∧ (∃ e, v.unum = .error e)) := by
  refine ⟨?_, ?_, ?_, ?_, ?_⟩
  · intro h
    cases v <;> simp_all [Value.isUNum, Value.isINum, Value.isReal, Value.str]
  · intro h
    cases v <;> simp_all [Value.isStr, Value.unum, Value.inum, Value.real]
  · rintro id name rfl
    refine ⟨rfl, rfl, ⟨_, rfl⟩, rfl⟩
  · rintro u rfl
    refine ⟨rfl, rfl, ?_, rfl⟩
    intro hu
    show Except.ok (toInt64 u) = Except.ok (u : Int)
    have hm : u % 2 ^ 64 = u := Nat.mod_eq_of_lt (lt_trans hu (by norm_num))
    have ht : toInt64 u = (u : Int) := by
      unfold toInt64
      dsimp only
      rw [hm, if_pos hu]
    rw [ht]
  · rintro i rfl
    exact ⟨rfl, rfl, ⟨_, rfl⟩⟩

/-- C8 witness: the rules applied at a concrete string value. -/
theorem c8_value_kind_rules_witness :
    (∃ e, (Value.vStr "abc").unum = .error e) ∧ (∃ e, (Value.vStr "abc").inum = .error e)
    ∧ (∃ e, (Value.vStr "abc").real = .error e) :=
  (c8_value_kind_rules (Value.vStr "abc")).2.1 (by decide)

/-! ## Characterization of `ValidateEndpoint` (shared by C3 and C6) -/

theorem ValidateEndpoint_ok_spec (help : Option SpecialEntry) (ps : List PositionalSpec)
    (rmin rmax : Option Nat) (id : Nat) (desc : Option (String × String)) (hidden : Bool)
    (e : ValidEndpoint) (h : ValidateEndpoint help ps rmin rmax id desc hidden = .ok e) :
    e.positionals = ps ∧ e.id = id ∧ e.hidden = hidden
    ∧ e.minimumActual = rmin.getD ps.length
    ∧ e.minimumEffective = effectiveMinimum ps (rmin.getD ps.length)
    ∧ ValidatePositionals help e.minimumEffective 0 ps = .ok ()
    ∧ (rmax = none → e.maximum = max e.minimumActual ps.length)
    ∧ (∀ m, rmax = some m → (m < e.minimumActual ∧ e.maximum = 0)
        ∨ (e.minimumActual ≤ m ∧ ¬(m < ps.length ∧ 0 < m) ∧ e.maximum = m)) := by
  cases rmax with
  | none =>
    unfold ValidateEndpoint at h
    simp only [bind, Except.bind, pure, Except.pure, throw, throwThe, MonadExceptOf.throw] at h
    repeat' split at h
    all_goals try simp only [reduceCtorEq] at h
    all_goals injection h with h2
    all_goals subst h2
    all_goals refine ⟨rfl, rfl, rfl, rfl, rfl, ?_, ?_, ?_⟩
    all_goals try simp_all
  | some m =>
    unfold ValidateEndpoint at h
    simp only [bind, Except.bind, pure, Except.pure, throw, throwThe, MonadExceptOf.throw] at h
    repeat' split at h
    all_goals try simp only [reduceCtorEq] at h
    all_goals injection h with h2
    all_goals subst h2
    all_goals refine ⟨rfl, rfl, rfl, rfl, rfl, ?_, ?_, ?_⟩
    all_goals try simp_all
    all_goals try omega
    all_goals by_cases hm : m < rmin.getD ps.length
    all_goals simp_all
    all_goals by_cases hm2 : m < ps.length ∧ 0 < m
    all_goals simp_all
    all_goals omega

theorem effectiveMinimum_le (ps : List PositionalSpec) (m : Nat) :
    effectiveMinimum ps m ≤ m := by
  induction m with
  | zero => simp [effectiveMinimum]
  | succ m ih =>
    unfold effectiveMinimum
    cases hp : ps[min ps.length (m + 1) - 1]? with
    | none => simp
    | some p =>
      by_cases hd : p.defValue.isSome
      · simp only [hd, if_true]
        omega
      · simp [hd]

/-- Every index between the computed effective minimum and
`min(minimumActual, count)` carries a default value. -/
theorem effectiveMinimum_defaulted (ps : List PositionalSpec) (m : Nat) :
    ∀ k, effectiveMinimum ps m ≤ k → k < min m ps.length →
      ∃ p, ps[k]? = some p ∧ p.defValue.isSome := by
  induction m with
  | zero => intro k h1 h2; omega
  | succ m ih =>
    intro k h1 h2
    unfold effectiveMinimum at h1
    cases hp : ps[min ps.length (m + 1) - 1]? with
    | none =>
      rw [hp] at h1
      simp at h1
      omega
    | some p =>
      rw [hp] at h1
      dsimp only at h1
      by_cases hd : p.defValue.isSome
      · rw [if_pos hd] at h1
        by_cases hk : k < min m ps.length
        · exact ih k h1 hk
        · have hkm : k = m ∧ m + 1 ≤ ps.length := by omega
          have hidx : min ps.length (m + 1) - 1 = k := by omega
          rw [hidx] at hp
          exact ⟨p, hp, hd⟩
      · rw [if_neg hd] at h1
        omega

/-- If the positional loop succeeds, no defaulted positional lies strictly
below the effective minimum. -/
theorem ValidatePositionals_ok_no_default_below (help : Option SpecialEntry) (minEff : Nat) :
    ∀ (ps : List PositionalSpec) (i0 : Nat), ValidatePositionals help minEff i0 ps = .ok () →
      ∀ k p, ps[k]? = some p → p.defValue.isSome → minEff ≤ i0 + k := by
  intro ps
  induction ps with
  | nil => intro i0 h k p hk; simp at hk
  | cons q rest ih =>
    intro i0 h k p hk hd
    unfold ValidatePositionals at h
    simp only [bind, Except.bind, pure, Except.pure, throw, throwThe, MonadExceptOf.throw] at h
    repeat' split at h
    all_goals try simp only [reduceCtorEq] at h
    -- surviving branches: q without default, or defaulted q with i0 not below minEff
    · rename_i hnone
      cases k with
      | zero =>
        simp at hk
        subst hk
        simp_all
      | succ k2 =>
        have := ih (i0 + 1) h k2 p (by simpa using hk) hd
        omega
    · rename_i hsome hlt
      cases k with
      | zero => omega
      | succ k2 =>
        have := ih (i0 + 1) h k2 p (by simpa using hk) hd
        omega

/-! ## Claim C3: default contiguity of positionals -/

/-- C3 counterexample: an endpoint whose second positional has a default
while the first has none is accepted by the validator (`minimumEffective`
drops to 1), although the claim requires every earlier positional to be
defaulted and such specifications to be rejected. -/
def tailDefaultPositionals : List PositionalSpec :=
  [⟨"a", .prim .any, none, "", ""⟩, ⟨"b", .prim .any, some (.vStr "x"), "", ""⟩]

def tailDefaultConfig : ConfigSpec :=
  { program := "prog", versionText := "", helpEntry := none, versionEntry := none,
    args := .mk none none tailDefaultPositionals [] [] "" [] [] 0 none none "" "" }

theorem c3_default_gap_accepted :
    (ValidateConfig tailDefaultConfig).toOption.map
        (fun vc => vc.root.endpoints.map fun e =>
          (e.minimumEffective, e.minimumActual, e.positionals.map fun p => p.defValue.isSome))
      = some [(1, 2, [false, true])] := by decide

/-- C3 (amended): in every Endpoint accepted by `ValidateEndpoint`, the
defaulted positionals below the declared minimum form a suffix: if the
positional at index `i` has a default, every positional at index `j` with
`i < j < min(minimumActual, count)` also has one; and every specification
with a defaulted positional followed, below the declared minimum, by an
undefaulted one (a gap) is rejected. -/
theorem c3_default_suffix (help : Option SpecialEntry) (ps : List PositionalSpec)
    (rmin rmax : Option Nat) (id : Nat) (desc : Option (String × String)) (hidden : Bool) :
    (∀ e, ValidateEndpoint help ps rmin rmax id desc hidden = .ok e →
      ∀ i j pi pj, ps[i]? = some pi → pi.defValue.isSome → i < j →
        j < min e.minimumActual ps.length → ps[j]? = some pj → pj.defValue.isSome)
    ∧ ((∃ i j pi pj, i < j ∧ j < min (rmin.getD ps.length) ps.length
          ∧ ps[i]? = some pi ∧ pi.defValue.isSome ∧ ps[j]? = some pj ∧ pj.defValue = none) →
        ∀ e, ValidateEndpoint help ps rmin rmax id desc hidden ≠ .ok e) := by
  constructor
  · intro e hok i j pi pj hi hdi hij hj hjp
    obtain ⟨-, -, -, hminA, hminE, hpos, -, -⟩ := ValidateEndpoint_ok_spec _ _ _ _ _ _ _ _ hok
    have hige : e.minimumEffective ≤ i := by
      have := ValidatePositionals_ok_no_default_below help e.minimumEffective ps 0 hpos i pi hi hdi
      omega
    have hwalk := effectiveMinimum_defaulted ps (rmin.getD ps.length) j
      (by rw [← hminE]; omega) (by rw [← hminA]; omega)
    obtain ⟨p, hp, hpd⟩ := hwalk
    rw [hjp] at hp
    cases hp
    exact hpd
  · rintro ⟨i, j, pi, pj, hij, hj, hi, hdi, hjp, hjn⟩ e hok
    obtain ⟨-, -, -, hminA, hminE, hpos, -, -⟩ := ValidateEndpoint_ok_spec _ _ _ _ _ _ _ _ hok
    have hige : e.minimumEffective ≤ i := by
      have := ValidatePositionals_ok_no_default_below help e.minimumEffective ps 0 hpos i pi hi hdi
      omega
    obtain ⟨p, hp, hpd⟩ := effectiveMinimum_defaulted ps (rmin.getD ps.length) j
      (by rw [← hminE]; omega) (by rw [← hminA]; omega)
    rw [hjp] at hp
    cases hp
    rw [hjn] at hpd
    cases hpd

/-- C3 witness: the suffix property applied to the accepted two-positional
endpoint with a defaulted tail. -/
theorem c3_default_suffix_witness :
    ∀ e, ValidateEndpoint none tailDefaultPositionals none none 0 none false = .ok e →
      ∀ i j pi pj, tailDefaultPositionals[i]? = some pi →
        pi.defValue.isSome → i < j →
        j < min e.minimumActual tailDefaultPositionals.length →
        tailDefaultPositionals[j]? = some pj →
        pj.defValue.isSome :=
  (c3_default_suffix none tailDefaultPositionals none none 0 none false).1

/-! ## Claim C6: endpoint requirement normalization -/

/-- C6 counterexample: an endpoint with two positionals, declared minimum 3
and declared maximum 1 is accepted: the declared maximum is nonzero and
smaller than the number of positionals, but because it is below
`minimumActual` it is normalized to 0 (unbounded) instead of being
rejected. -/
def lowMaximumConfig : ConfigSpec :=
  { program := "prog", versionText := "", helpEntry := none, versionEntry := none,
    args := .mk (some 3) (some 1)
      [⟨"a", .prim .any, none, "", ""⟩, ⟨"b", .prim .any, none, "", ""⟩]
      [] [] "" [] [] 0 none none "" "" }

theorem c6_low_maximum_accepted :
    (ValidateConfig lowMaximumConfig).toOption.map
        (fun vc => vc.root.endpoints.map fun e =>
          (e.minimumActual, e.maximum, e.positionals.length))
      = some [(3, 0, 2)] := by decide

/-- C6 (amended): for every accepted Endpoint, `minimumActual` is the
declared minimum or the positional count; an unset maximum becomes
`max(minimumActual, count)`; a declared maximum below `minimumActual` is
normalized to 0 (unbounded); and a declared maximum that is nonzero, at
least `minimumActual` and smaller than the positional count is rejected. -/
theorem c6_requirement_normalization (help : Option SpecialEntry) (ps : List PositionalSpec)
    (rmin rmax : Option Nat) (id : Nat) (desc : Option (String × String)) (hidden : Bool) :
    (∀ e, ValidateEndpoint help ps rmin rmax id desc hidden = .ok e →
      e.minimumActual = rmin.getD ps.length
      ∧ (rmax = none → e.maximum = max e.minimumActual ps.length)
      ∧ (∀ m, rmax = some m → m < e.minimumActual → e.maximum = 0)
      ∧ (∀ m, rmax = some m → e.minimumActual ≤ m → e.maximum = m))
    ∧ (∀ m, rmax = some m → rmin.getD ps.length ≤ m → 0 < m → m < ps.length →
        ∀ e, ValidateEndpoint help ps rmin rmax id desc hidden ≠ .ok e) := by
  constructor
  · intro e hok
    obtain ⟨-, -, -, hminA, -, -, hnone, hsome⟩ := ValidateEndpoint_ok_spec _ _ _ _ _ _ _ _ hok
    refine ⟨hminA, hnone, ?_, ?_⟩
    · intro m hm hlt
      rcases hsome m hm with ⟨-, h0⟩ | ⟨hge, -, -⟩
      · exact h0
      · omega
    · intro m hm hge
      rcases hsome m hm with ⟨hlt, -⟩ | ⟨-, -, hmx⟩
      · omega
      · exact hmx
  · intro m hm hge h0 hlen e hok
    obtain ⟨-, -, -, hminA, -, -, -, hsome⟩ := ValidateEndpoint_ok_spec _ _ _ _ _ _ _ _ hok
    rcases hsome m hm with ⟨hlt, -⟩ | ⟨-, hnot, -⟩
    · omega
    · exact hnot ⟨hlen, h0⟩

/-- C6 witness: the normalization facts at a concrete accepted endpoint
(one positional, declared minimum 1, no declared maximum). -/
theorem c6_requirement_normalization_witness :
    ∀ e, ValidateEndpoint none [⟨"a", .prim .any, none, "", ""⟩] (some 1) none 0 none false
        = .ok e →
      e.minimumActual = (some 1 : Option Nat).getD 1
      ∧ ((none : Option Nat) = none → e.maximum = max e.minimumActual 1)
      ∧ (∀ m, (none : Option Nat) = some m → m < e.minimumActual → e.maximum = 0)
      ∧ (∀ m, (none : Option Nat) = some m → e.minimumActual ≤ m → e.maximum = m) := by
  intro e hok
  have := (c6_requirement_normalization none [⟨"a", .prim .any, none, "", ""⟩]
    (some 1) none 0 none false).1 e hok
  simpa using this

/-! ## Claim C2: endpoint selection for a supplied positional count -/

/-- Scanning keeps the current endpoint when every remaining endpoint's
`minimumEffective` exceeds `n` and the current maximum is not exceeded. -/
theorem selectLoop_all_above (n : Nat) (cur : ValidEndpoint) (l : List ValidEndpoint)
    (hcur : cur.minimumEffective ≤ cur.maximum) (habove : ∀ e ∈ l, n < e.minimumEffective)
    (hn : n < cur.minimumEffective) :
    selectLoop n cur l = cur := by
  cases l with
  | nil => rfl
  | cons e rest =>
    unfold selectLoop
    rw [if_neg (by have := habove e (List.mem_cons_self e rest); omega)]
    rw [if_neg (by omega)]

/-- Scanning returns the last endpoint when every maximum lies below `n`. -/
theorem selectLoop_all_below (n : Nat) :
    ∀ (l : List ValidEndpoint) (cur : ValidEndpoint),
      (∀ e ∈ l, e.minimumEffective ≤ e.maximum) → (∀ e ∈ l, e.maximum < n) →
      selectLoop n cur l = (cur :: l).getLast (by simp) := by
  intro l
  induction l with
  | nil => intro cur _ _; rfl
  | cons e rest ih =>
    intro cur hb hm
    unfold selectLoop
    rw [if_pos (by
      have h1 := hb e (List.mem_cons_self e rest)
      have h2 := hm e (List.mem_cons_self e rest)
      omega)]
    rw [ih e (fun x hx => hb x (List.mem_cons_of_mem e hx))
      (fun x hx => hm x (List.mem_cons_of_mem e hx))]
    simp [List.getLast_cons]

/-- Scanning returns the endpoint whose bracket contains `n` when one
does. -/
theorem selectLoop_contains (n : Nat) :
    ∀ (l : List ValidEndpoint) (cur : ValidEndpoint),
      (cur :: l).Pairwise (fun a b => a.minimumEffective ≤ b.minimumEffective) →
      (cur :: l).Chain' (fun a b => a.maximum < b.minimumEffective) →
      (∃ e ∈ cur :: l, e.minimumEffective ≤ n ∧ n ≤ e.maximum) →
      (selectLoop n cur l).minimumEffective ≤ n ∧ n ≤ (selectLoop n cur l).maximum := by
  intro l
  induction l with
  | nil =>
    intro cur _ _ hex
    obtain ⟨e, he, h1, h2⟩ := hex
    simp at he
    subst he
    exact ⟨h1, h2⟩
  | cons e rest ih =>
    intro cur hsort hchain hex
    have hce : cur.maximum < e.minimumEffective := (List.chain'_cons.mp hchain).1
    unfold selectLoop
    obtain ⟨w, hw, hw1, hw2⟩ := hex
    rcases List.mem_cons.mp hw with rfl | hw3
    · -- the current endpoint contains n
      rw [if_neg (by omega), if_neg (by omega)]
      exact ⟨hw1, hw2⟩
    · -- the containing endpoint is further down the list
      have hemin : e.minimumEffective ≤ w.minimumEffective := by
        rcases List.mem_cons.mp hw3 with rfl | hw4
        · exact le_refl _
        · exact ((List.pairwise_cons.mp (List.pairwise_cons.mp hsort).2).1 w hw4)
      rw [if_pos (by omega)]
      exact ih e (List.pairwise_cons.mp hsort).2 (List.chain'_cons.mp hchain).2
        ⟨w, hw3, hw1, hw2⟩

/-- C2 (amended): over a validated endpoint list (sorted by
`minimumEffective` with non-overlapping adjacent pairs) in which every
endpoint additionally satisfies `minimumEffective ≤ maximum`, the parser
selects the endpoint whose bracket `[minimumEffective, maximum]` contains
`n` whenever one exists; when `n` is below every `minimumEffective` it
selects the first endpoint, and when `n` is above every `maximum` it
selects the last.  (Without the boundedness proviso the first/last rules
fail, see the counterexample: a declared maximum below the minimum is
stored as 0.) -/
theorem c2_endpoint_selection (eps : List ValidEndpoint) (n : Nat) (sel : ValidEndpoint)
    (hsorted : eps.Pairwise (fun a b => a.minimumEffective ≤ b.minimumEffective))
    (hchain : eps.Chain' (fun a b => a.maximum < b.minimumEffective))
    (hbounded : ∀ e ∈ eps, e.minimumEffective ≤ e.maximum)
    (hsel : selectEndpoint eps n = some sel) :
    ((∃ e ∈ eps, e.minimumEffective ≤ n ∧ n ≤ e.maximum) →
      sel.minimumEffective ≤ n ∧ n ≤ sel.maximum)
    ∧ ((∀ e ∈ eps, n < e.minimumEffective) → eps.head? = some sel)
    ∧ ((∀ e ∈ eps, e.maximum < n) → eps.getLast? = some sel) := by
  cases eps with
  | nil => cases hsel
  | cons c l =>
    simp only [selectEndpoint, Option.some.injEq] at hsel
    refine ⟨?_, ?_, ?_⟩
    · intro hex
      rw [← hsel]
      exact selectLoop_contains n l c hsorted hchain hex
    · intro habove
      have := selectLoop_all_above n c l (hbounded c (List.mem_cons_self c l))
        (fun e he => habove e (List.mem_cons_of_mem c he))
        (habove c (List.mem_cons_self c l))
      simp [← hsel, this]
    · intro hbelow
      have := selectLoop_all_below n l c (fun e he => hbounded e (List.mem_cons_of_mem c he))
        (fun e he => hbelow e (List.mem_cons_of_mem c he))
      rw [← hsel, this]
      exact (List.getLast?_eq_getLast _ _).symm

/-- The two validated endpoints of the copy scenario (ids 10 and 11). -/
def copyEndpointA : ValidEndpoint := ⟨[], 10, 0, 0, 0, false⟩

def copyEndpointB : ValidEndpoint :=
  ⟨[⟨"src", .prim .any, none, "", ""⟩, ⟨"dst", .prim .any, none, "", ""⟩], 11, 2, 2, 2, false⟩

/-- C2 witness: with the copy scenario's endpoints and two supplied
positionals, the selection rules pick the containing endpoint (id 11). -/
theorem c2_endpoint_selection_witness :
    ((∃ e ∈ [copyEndpointA, copyEndpointB], e.minimumEffective ≤ 2 ∧ 2 ≤ e.maximum) →
      copyEndpointB.minimumEffective ≤ 2 ∧ 2 ≤ copyEndpointB.maximum)
    ∧ ((∀ e ∈ [copyEndpointA, copyEndpointB], 2 < e.minimumEffective) →
      [copyEndpointA, copyEndpointB].head? = some copyEndpointB)
    ∧ ((∀ e ∈ [copyEndpointA, copyEndpointB], e.maximum < 2) →
      [copyEndpointA, copyEndpointB].getLast? = some copyEndpointB) :=
  c2_endpoint_selection [copyEndpointA, copyEndpointB] 2 copyEndpointB
    (by decide) (by simp [copyEndpointA, copyEndpointB]) (by decide) (by decide)

/-- C2 counterexample configuration: endpoint id 20 has two positionals
with declared requirement (2, 1) — stored as bracket (2, 0) — and endpoint
id 21 has three positionals with requirement (3, 3). -/
def skewedEndpointsConfig : ConfigSpec :=
  { program := "prog", versionText := "", helpEntry := none, versionEntry := none,
    args := .mk none none [] [] [] ""
      []
      [⟨20, some 2, some 1, [⟨"a", .prim .any, none, "", ""⟩, ⟨"b", .prim .any, none, "", ""⟩],
          false, "", ""⟩,
        ⟨21, some 3, some 3,
          [⟨"c", .prim .any, none, "", ""⟩, ⟨"d", .prim .any, none, "", ""⟩,
            ⟨"e", .prim .any, none, "", ""⟩], false, "", ""⟩]
      0 none none "" "" }

/-- C2 counterexample: the configuration validates; with one supplied
positional the count is below every endpoint's `minimumEffective`, yet the
parser selects the second endpoint (id 21), not the first (id 20) as the
claim states — because endpoint 20's stored maximum 0 (encoding "no
maximum") compares below the count. -/
theorem c2_below_minimum_selects_second :
    (ValidateConfig skewedEndpointsConfig).toOption.map (fun vc =>
        (vc.root.endpoints.map fun e => (e.id, e.minimumEffective, e.maximum),
         decide (∀ e ∈ vc.root.endpoints, 1 < e.minimumEffective),
         (selectEndpoint vc.root.endpoints 1).map fun e => e.id,
         vc.root.endpoints.head?.map fun e => e.id))
      = some ([(20, 2, 0), (21, 3, 3)], true, some 21, some 20) := by decide

/-! ## Claim C1: endpoint bracket uniqueness on validated nodes -/

theorem insertByMinEff_mem (e : ValidEndpoint) (l : List ValidEndpoint) (b : ValidEndpoint) :
    b ∈ insertByMinEff e l ↔ b = e ∨ b ∈ l := by
  induction l with
  | nil => simp [insertByMinEff]
  | cons x xs ih =>
    unfold insertByMinEff
    split <;> simp [List.mem_cons, ih] <;> tauto

theorem insertByMinEff_pairwise (e : ValidEndpoint) (l : List ValidEndpoint)
    (h : l.Pairwise (fun a b => a.minimumEffective ≤ b.minimumEffective)) :
    (insertByMinEff e l).Pairwise (fun a b => a.minimumEffective ≤ b.minimumEffective) := by
  induction l with
  | nil => simp [insertByMinEff]
  | cons x xs ih =>
    obtain ⟨hx, hxs⟩ := List.pairwise_cons.mp h
    unfold insertByMinEff
    split
    · rename_i hle
      refine List.pairwise_cons.mpr ⟨?_, h⟩
      intro b hb
      rcases List.mem_cons.mp hb with rfl | hb2
      · exact hle
      · exact le_trans hle (hx b hb2)
    · rename_i hgt
      refine List.pairwise_cons.mpr ⟨?_, ih hxs⟩
      intro b hb
      rcases (insertByMinEff_mem e xs b).mp hb with rfl | hb2
      · omega
      · exact hx b hb2

theorem sortEndpoints_pairwise (l : List ValidEndpoint) :
    (sortEndpoints l).Pairwise (fun a b => a.minimumEffective ≤ b.minimumEffective) := by
  induction l with
  | nil => simp [sortEndpoints]
  | cons e rest ih => exact insertByMinEff_pairwise e (sortEndpoints rest) ih

/-- A passed overlap check yields the adjacent strict separation
`maximum < next minimumEffective`. -/
theorem CheckEndpointOverlap_ok_chain :
    ∀ (l : List ValidEndpoint) (u : Unit), CheckEndpointOverlap l = .ok u →
      l.Chain' (fun a b => a.maximum < b.minimumEffective)
  | [], _, _ => List.chain'_nil
  | [_], _, _ => by simp
  | a :: b :: rest, u, h => by
    unfold CheckEndpointOverlap at h
    split at h
    · exact absurd h (by simp)
    · rename_i hle
      exact List.chain'_cons.mpr ⟨by omega, CheckEndpointOverlap_ok_chain (b :: rest) u h⟩

/-- A successful `ValidateNodeEndpoints` run yields a list sorted by
`minimumEffective` whose adjacent brackets do not overlap. -/
theorem ValidateNodeEndpoints_ok_spec (help : Option SpecialEntry) (hidden : Bool)
    (reqMin reqMax : Option Nat) (ps : List PositionalSpec) (eps : List EndpointSpec)
    (epid : Nat) (out : List ValidEndpoint)
    (h : ValidateNodeEndpoints help hidden reqMin reqMax ps eps epid = .ok out) :
    out.Pairwise (fun a b => a.minimumEffective ≤ b.minimumEffective)
    ∧ out.Chain' (fun a b => a.maximum < b.minimumEffective) := by
  unfold ValidateNodeEndpoints at h
  simp only [bind, Except.bind, pure, Except.pure, throw, throwThe, MonadExceptOf.throw] at h
  repeat' split at h
  all_goals try simp only [reduceCtorEq] at h
  all_goals simp only [Except.ok.injEq] at h
  all_goals subst h
  all_goals exact ⟨sortEndpoints_pairwise _, CheckEndpointOverlap_ok_chain _ _ (by assumption)⟩

/-- Every node produced by a successful `ValidateArguments` run has its
endpoint list sorted by `minimumEffective` with non-overlapping adjacent
brackets (group nodes have an empty endpoint list). -/
theorem ValidateArguments_ok_endpoints (ctx : VCtx) (args : ArgsSpec) (gh hid rgo ngo : Bool)
    (st st2 : VState) (v : ValidArguments)
    (h : ValidateArguments ctx args gh hid rgo ngo st = .ok (st2, v)) :
    v.endpoints.Pairwise (fun a b => a.minimumEffective ≤ b.minimumEffective)
    ∧ v.endpoints.Chain' (fun a b => a.maximum < b.minimumEffective) := by
  obtain ⟨rmin, rmax, ps, opts, infos, gname, groups, eps, epid, gr, gn, dn, dr⟩ := args
  unfold ValidateArguments at h
  simp only [bind, Except.bind, pure, Except.pure, throw, throwThe, MonadExceptOf.throw] at h
  repeat' split at h
  all_goals try simp only [reduceCtorEq] at h
  all_goals simp only [Except.ok.injEq, Prod.mk.injEq] at h
  all_goals obtain ⟨h1, h2⟩ := h
  all_goals subst h2
  all_goals simp only [ValidArguments.endpoints]
  all_goals first
    | exact ⟨List.Pairwise.nil, List.chain'_nil⟩
    | exact ValidateNodeEndpoints_ok_spec _ _ _ _ _ _ _ _ (by assumption)

/-- A node that is the output of some successful `ValidateArguments` run. -/
def ValidatedNode (v : ValidArguments) : Prop :=
  ∃ ctx args gh hid rgo ngo st st2, ValidateArguments ctx args gh hid rgo ngo st = .ok (st2, v)

/-- Children registered by the group loop are either inherited from the
accumulator or themselves outputs of `ValidateArguments`. -/
theorem ValidateGroups_sub_validated (ctx : VCtx) (ph rgo ngo : Bool) :
    ∀ (gs : List (GroupHead × ArgsSpec)) (st : VState)
      (acc : List (String × Option Char × Nat × ValidArguments))
      (st2 : VState) (out : List (String × Option Char × Nat × ValidArguments)),
      ValidateGroups ctx ph rgo ngo st acc gs = .ok (st2, out) →
      ∀ c ∈ out, c ∈ acc ∨ ValidatedNode c.2.2.2 := by
  intro gs
  induction gs with
  | nil =>
    intro st acc st2 out h c hc
    unfold ValidateGroups at h
    simp only [pure, Except.pure, Except.ok.injEq, Prod.mk.injEq] at h
    obtain ⟨-, h2⟩ := h
    subst h2
    exact Or.inl hc
  | cons g rest ih =>
    intro st acc st2 out h c hc
    obtain ⟨ghead, gbody⟩ := g
    unfold ValidateGroups at h
    simp only [bind, Except.bind, pure, Except.pure, throw, throwThe, MonadExceptOf.throw] at h
    repeat' split at h
    all_goals try simp only [reduceCtorEq] at h
    all_goals rcases ih _ _ _ _ h c hc with hin | hval
    all_goals try exact Or.inr hval
    all_goals rcases List.mem_append.mp hin with hin2 | hin3
    all_goals try exact Or.inl hin2
    all_goals simp only [List.mem_singleton] at hin3
    all_goals subst hin3
    all_goals exact Or.inr ⟨_, _, _, _, _, _, _, _, by assumption⟩

/-- Every child of a validated node is itself validated. -/
theorem ValidateArguments_ok_sub (ctx : VCtx) (args : ArgsSpec) (gh hid rgo ngo : Bool)
    (st st2 : VState) (v : ValidArguments)
    (h : ValidateArguments ctx args gh hid rgo ngo st = .ok (st2, v)) :
    ∀ c ∈ v.sub, ValidatedNode c.2.2.2 := by
  obtain ⟨rmin, rmax, ps, opts, infos, gname, groups, eps, epid, gr, gn, dn, dr⟩ := args
  unfold ValidateArguments at h
  simp only [bind, Except.bind, pure, Except.pure, throw, throwThe, MonadExceptOf.throw] at h
  repeat' split at h
  all_goals try simp only [reduceCtorEq] at h
  all_goals simp only [Except.ok.injEq, Prod.mk.injEq] at h
  all_goals obtain ⟨h1, h2⟩ := h
  all_goals subst h2
  all_goals simp only [ValidArguments.sub]
  all_goals intro c hc
  all_goals try cases hc
  all_goals rcases ValidateGroups_sub_validated ctx _ _ _ _ _ _ _ _ (by assumption) c hc
    with hin | hval
  all_goals try cases hin
  all_goals exact hval

/-- Reachability in the validated tree: `SubNode v w` means `w` is `v` or a
descendant of `v`. -/
inductive SubNode : ValidArguments → ValidArguments → Prop where
  | refl (v : ValidArguments) : SubNode v v
  | child {v : ValidArguments} {c : String × Option Char × Nat × ValidArguments}
      {target : ValidArguments} (hc : c ∈ v.sub) (h : SubNode c.2.2.2 target) :
      SubNode v target

theorem ValidatedNode_subNode {v w : ValidArguments} (h : SubNode v w)
    (hv : ValidatedNode v) : ValidatedNode w := by
  induction h with
  | refl => exact hv
  | child hc hsub ih =>
    obtain ⟨ctx, args, gh, hid, rgo, ngo, st, st2, hok⟩ := hv
    exact ih (ValidateArguments_ok_sub ctx args gh hid rgo ngo st st2 _ hok _ hc)

/-- Sortedness plus the adjacent separation yields pairwise separation. -/
theorem pairwise_separation (l : List ValidEndpoint)
    (hp : l.Pairwise (fun a b => a.minimumEffective ≤ b.minimumEffective))
    (hc : l.Chain' (fun a b => a.maximum < b.minimumEffective)) :
    l.Pairwise (fun a b => a.maximum < b.minimumEffective) := by
  induction l with
  | nil => simp
  | cons a xs ih =>
    obtain ⟨ha, hxs⟩ := List.pairwise_cons.mp hp
    refine List.pairwise_cons.mpr ⟨?_, ih hxs (List.Chain'.tail hc)⟩
    cases xs with
    | nil => intro w hw; cases hw
    | cons b ys =>
      intro w hw
      have hab : a.maximum < b.minimumEffective := (List.chain'_cons.mp hc).1
      rcases List.mem_cons.mp hw with rfl | hw2
      · exact hab
      · have := (List.pairwise_cons.mp hxs).1 w hw2
        omega

theorem countP_le_one_of_pairwise (l : List ValidEndpoint) (P : ValidEndpoint → Bool)
    (h : l.Pairwise (fun a b => P a = true → P b = true → False)) : l.countP P ≤ 1 := by
  induction l with
  | nil => simp
  | cons a xs ih =>
    obtain ⟨ha, hxs⟩ := List.pairwise_cons.mp h
    by_cases hp : P a = true
    · have hz : xs.countP P = 0 := List.countP_eq_zero.mpr (fun b hb hPb => ha b hb hp hPb)
      simp [List.countP_cons, hp, hz]
    · have := ih hxs
      simp [List.countP_cons, hp]
      omega

/-- A successful `ValidateConfig` run validates the root node. -/
theorem ValidateConfig_ok_root (cfg : ConfigSpec) (vc : ValidConfig)
    (h : ValidateConfig cfg = .ok vc) : ValidatedNode vc.root := by
  unfold ValidateConfig at h
  simp only [bind, Except.bind, pure, Except.pure, throw, throwThe, MonadExceptOf.throw] at h
  repeat' split at h
  all_goals try simp only [reduceCtorEq] at h
  all_goals simp only [Except.ok.injEq] at h
  all_goals subst h
  all_goals exact ⟨_, _, _, _, _, _, _, _, by assumption⟩

/-- C1 (amended): after `ValidateConfig` succeeds, every node of the
validated tree has its endpoints sorted by `minimumEffective` with every
adjacent pair satisfying `maximum < next minimumEffective`, and for every
supplied-positional-count `n` at most one endpoint's literal bracket
`[minimumEffective, maximum]` contains `n`.  (The claim's reading of
`maximum = 0` as "unbounded" is dropped: under that reading two brackets of
a validated node can contain the same count, see the counterexample.) -/
theorem c1_endpoint_uniqueness (cfg : ConfigSpec) (vc : ValidConfig) (node : ValidArguments)
    (hok : ValidateConfig cfg = .ok vc) (hsub : SubNode vc.root node) :
    node.endpoints.Pairwise (fun a b => a.minimumEffective ≤ b.minimumEffective)
    ∧ node.endpoints.Chain' (fun a b => a.maximum < b.minimumEffective)
    ∧ ∀ n, (node.endpoints.countP
        fun e => decide (e.minimumEffective ≤ n ∧ n ≤ e.maximum)) ≤ 1 := by
  have hval : ValidatedNode node := ValidatedNode_subNode hsub (ValidateConfig_ok_root cfg vc hok)
  obtain ⟨ctx, args, gh, hid, rgo, ngo, st, st2, hn⟩ := hval
  obtain ⟨hp, hc⟩ := ValidateArguments_ok_endpoints ctx args gh hid rgo ngo st st2 node hn
  refine ⟨hp, hc, ?_⟩
  intro n
  refine countP_le_one_of_pairwise _ _ ?_
  refine (pairwise_separation _ hp hc).imp ?_
  intro a b hab hPa hPb
  simp only [decide_eq_true_eq] at hPa hPb
  omega

/-- C1 counterexample configuration: the copy scenario — an implicit-style
explicit endpoint with no positionals (id 10, bracket (0,0)) next to a
two-positional endpoint (id 11, bracket (2,2)). -/
def copyConfig : ConfigSpec :=
  { program := "prog", versionText := "", helpEntry := none, versionEntry := none,
    args := .mk none none [] [] [] ""
      []
      [⟨10, none, none, [], false, "", ""⟩,
        ⟨11, none, none,
          [⟨"src", .prim .any, none, "", ""⟩, ⟨"dst", .prim .any, none, "", ""⟩],
          false, "", ""⟩]
      0 none none "" "" }

/-- The claim's bracket containment with `maximum = 0` read as unbounded. -/
def bracketContainsUnbounded (e : ValidEndpoint) (n : Nat) : Bool :=
  decide (e.minimumEffective ≤ n) && (decide (e.maximum = 0) || decide (n ≤ e.maximum))

/-- C1 counterexample: the copy configuration validates, yet with the
claim's "maximum = 0 meaning unbounded" reading *two* endpoints of the
validated root contain the supplied count 2. -/
theorem c1_unbounded_brackets_overlap :
    (ValidateConfig copyConfig).toOption.map (fun vc =>
        (vc.root.endpoints.countP (fun e => bracketContainsUnbounded e 2),
         vc.root.endpoints.map fun e => (e.id, e.minimumEffective, e.maximum)))
      = some (2, [(10, 0, 0), (11, 2, 2)]) := by decide

/-- C1 witness: the at-most-one-bracket bound evaluated on the validated
copy configuration at count 2. -/
theorem c1_endpoint_uniqueness_witness :
    ((ValidateConfig copyConfig).toOption.map (fun vc =>
        vc.root.endpoints.countP
          fun e => decide (e.minimumEffective ≤ 2 ∧ 2 ≤ e.maximum))).getD 0 ≤ 1 := by
  cases h : ValidateConfig copyConfig with
  | error e => simp [Except.toOption]
  | ok vc =>
    simpa [Except.toOption] using
      (c1_endpoint_uniqueness copyConfig vc vc.root h (SubNode.refl _)).2.2 2

/-! ## Scanner print-flag invariants (shared by C4 and C9) -/

theorem deferOnce_fields (st : ScanState) (m : String) :
    (deferOnce st m).printHelp = st.printHelp
    ∧ (deferOnce st m).printVersion = st.printVersion
    ∧ (deferOnce st m).positionals = st.positionals
    ∧ (deferOnce st m).topMost = st.topMost := by
  unfold deferOnce
  split <;> exact ⟨rfl, rfl, rfl, rfl⟩

theorem applyOptionEntry_fields (st : ScanState) (rest : List String) (payload : String)
    (hp pu : Bool) (entry : ValidOption) :
    (applyOptionEntry st rest payload hp pu entry).1.printHelp = st.printHelp
    ∧ (applyOptionEntry st rest payload hp pu entry).1.printVersion = st.printVersion
    ∧ (applyOptionEntry st rest payload hp pu entry).1.positionals = st.positionals
    ∧ (applyOptionEntry st rest payload hp pu entry).1.topMost = st.topMost := by
  unfold applyOptionEntry
  repeat' split
  all_goals exact ⟨rfl, rfl, rfl, rfl⟩

/-- Print-flag behaviour of the abbreviation run: help/version triggers are
only added (never removed), a version trigger implies a configured version
entry, the flags are untouched in menu mode, and the positional buffer and
current node never change. -/
theorem fParseAbbrevChars_print (cfg : ValidConfig) (payload : String) (hp : Bool) :
    ∀ (chars : List Char) (st : ScanState) (rest : List String) (pu : Bool),
      ((fParseAbbrevChars cfg payload hp st rest pu chars).1.printHelp = st.printHelp
        ∨ (fParseAbbrevChars cfg payload hp st rest pu chars).1.printHelp ≠ PrintOption.none)
      ∧ (st.printVersion = true →
          (fParseAbbrevChars cfg payload hp st rest pu chars).1.printVersion = true)
      ∧ ((fParseAbbrevChars cfg payload hp st rest pu chars).1.printVersion = true →
          st.printVersion = true ∨ cfg.version.isSome)
      ∧ (cfg.program = "" →
          (fParseAbbrevChars cfg payload hp st rest pu chars).1.printHelp = st.printHelp
          ∧ (fParseAbbrevChars cfg payload hp st rest pu chars).1.printVersion = st.printVersion)
      ∧ (fParseAbbrevChars cfg payload hp st rest pu chars).1.positionals = st.positionals
      ∧ (fParseAbbrevChars cfg payload hp st rest pu chars).1.topMost = st.topMost := by
  intro chars
  induction chars with
  | nil =>
    intro st rest pu
    exact ⟨Or.inl rfl, fun h => h, fun h => Or.inl h, fun _ => ⟨rfl, rfl⟩, rfl, rfl⟩
  | cons c cs ih =>
    intro st rest pu
    unfold fParseAbbrevChars
    split
    · -- help abbreviation (program mode only)
      rename_i hcond
      split
      · obtain ⟨ih1, ih2, ih3, ih4, ih5, ih6⟩ := ih _ rest pu
        refine ⟨?_, ih2, ?_, ?_, ih5, ih6⟩
        · rcases ih1 with h | h
          · rw [h]; exact Or.inr (by simp)
          · exact Or.inr h
        · intro hv
          rcases ih3 hv with h | h
          · exact Or.inl h
          · exact Or.inr h
        · intro hm; exact absurd hm (by simp_all)
      · obtain ⟨ih1, ih2, ih3, ih4, ih5, ih6⟩ := ih st rest pu
        refine ⟨ih1, ih2, ih3, ?_, ih5, ih6⟩
        intro hm; exact absurd hm (by simp_all)
    · split
      · -- version abbreviation (program mode only)
        rename_i hnh hcond
        obtain ⟨ih1, ih2, ih3, ih4, ih5, ih6⟩ := ih _ rest pu
        refine ⟨ih1, fun _ => ih2 rfl, ?_, ?_, ih5, ih6⟩
        · intro _
          exact Or.inr (by
            rcases hcond with ⟨-, hv⟩
            unfold specialAbbrevIs at hv
            cases hve : cfg.version with
            | none => rw [hve] at hv; cases hv
            | some v => simp)
        · intro hm; exact absurd hm (by simp_all)
      · split
        · -- unknown abbreviation: deferred
          obtain ⟨ih1, ih2, ih3, ih4, ih5, ih6⟩ := ih _ rest pu
          obtain ⟨d1, d2, d3, d4⟩ := deferOnce_fields st
            ("Unknown option abbreviation [" ++ String.singleton c ++ "] encountered.")
          refine ⟨?_, ?_, ?_, ?_, ?_, ?_⟩
          · rcases ih1 with h | h
            · exact Or.inl (h.trans d1)
            · exact Or.inr h
          · intro hv; exact ih2 (d2.trans hv ▸ by rw [d2, hv])
          · intro hv
            rcases ih3 hv with h | h
            · rw [d2] at h; exact Or.inl h
            · exact Or.inr h
          · intro hm
            obtain ⟨a1, a2⟩ := ih4 hm
            exact ⟨a1.trans d1, a2.trans d2⟩
          · exact ih5.trans d3
          · exact ih6.trans d4
        · -- known option abbreviation
          rename_i pr heq
          obtain ⟨a1, a2, a3, a4⟩ := applyOptionEntry_fields st rest payload hp pu pr.2
          obtain ⟨ih1, ih2, ih3, ih4, ih5, ih6⟩ := ih
            (applyOptionEntry st rest payload hp pu pr.2).1
            (applyOptionEntry st rest payload hp pu pr.2).2.1
            (applyOptionEntry st rest payload hp pu pr.2).2.2
          refine ⟨?_, ?_, ?_, ?_, ?_, ?_⟩
          · rcases ih1 with h | h
            · exact Or.inl (h.trans a1)
            · exact Or.inr h
          · intro hv; exact ih2 (by rw [a2, hv])
          · intro hv
            rcases ih3 hv with h | h
            · rw [a2] at h; exact Or.inl h
            · exact Or.inr h
          · intro hm
            obtain ⟨b1, b2⟩ := ih4 hm
            exact ⟨b1.trans a1, b2.trans a2⟩
          · exact ih5.trans a3
          · exact ih6.trans a4

/-- The same invariants for a whole option token. -/
theorem fParseOptional_print (cfg : ValidConfig) (st : ScanState) (rest : List String)
    (arg payload : String) (fullName hp : Bool) :
    ((fParseOptional cfg st rest arg payload fullName hp).1.printHelp = st.printHelp
      ∨ (fParseOptional cfg st rest arg payload fullName hp).1.printHelp ≠ PrintOption.none)
    ∧ (st.printVersion = true →
        (fParseOptional cfg st rest arg payload fullName hp).1.printVersion = true)
    ∧ ((fParseOptional cfg st rest arg payload fullName hp).1.printVersion = true →
        st.printVersion = true ∨ cfg.version.isSome)
    ∧ (cfg.program = "" →
        (fParseOptional cfg st rest arg payload fullName hp).1.printHelp = st.printHelp
        ∧ (fParseOptional cfg st rest arg payload fullName hp).1.printVersion = st.printVersion)
    ∧ (fParseOptional cfg st rest arg payload fullName hp).1.positionals = st.positionals
    ∧ (fParseOptional cfg st rest arg payload fullName hp).1.topMost = st.topMost := by
  unfold fParseOptional
  dsimp only
  have core :
      ∀ (r : ScanState × List String × Bool),
        (r.1.printHelp = st.printHelp ∨ r.1.printHelp ≠ PrintOption.none) →
        (st.printVersion = true → r.1.printVersion = true) →
        (r.1.printVersion = true → st.printVersion = true ∨ cfg.version.isSome) →
        (cfg.program = "" → r.1.printHelp = st.printHelp ∧ r.1.printVersion = st.printVersion) →
        r.1.positionals = st.positionals → r.1.topMost = st.topMost →
        (let st2 := if hp ∧ r.2.2 = false then
            deferOnce r.1 ("Value [" ++ payload ++ "] not used by option.")
          else r.1
        (st2.printHelp = st.printHelp ∨ st2.printHelp ≠ PrintOption.none)
        ∧ (st.printVersion = true → st2.printVersion = true)
        ∧ (st2.printVersion = true → st.printVersion = true ∨ cfg.version.isSome)
        ∧ (cfg.program = "" → st2.printHelp = st.printHelp ∧ st2.printVersion = st.printVersion)
        ∧ st2.positionals = st.positionals ∧ st2.topMost = st.topMost) := by
    intro r h1 h2 h3 h4 h5 h6
    dsimp only
    split
    · obtain ⟨d1, d2, d3, d4⟩ := deferOnce_fields r.1
        ("Value [" ++ payload ++ "] not used by option.")
      refine ⟨?_, ?_, ?_, ?_, d3.trans h5, d4.trans h6⟩
      · rcases h1 with h | h
        · exact Or.inl (d1.trans h)
        · exact Or.inr (by rw [d1]; exact h)
      · intro hv; rw [d2]; exact h2 hv
      · intro hv; rw [d2] at hv; exact h3 hv
      · intro hm
        obtain ⟨a1, a2⟩ := h4 hm
        exact ⟨d1.trans a1, d2.trans a2⟩
    · exact ⟨h1, h2, h3, h4, h5, h6⟩
  by_cases hfn : fullName = true
  · rw [if_pos hfn]
    by_cases h1 : cfg.program ≠ "" ∧ specialNameIs cfg.help arg = true
    · rw [if_pos h1]
      refine core _ (Or.inr (by simp)) (fun h => h) (fun h => Or.inl h) ?_ rfl rfl
      intro hm; exact absurd hm h1.1
    · rw [if_neg h1]
      by_cases h2 : cfg.program ≠ "" ∧ specialNameIs cfg.version arg = true
      · rw [if_pos h2]
        refine core _ (Or.inl rfl) (fun _ => rfl) ?_ ?_ rfl rfl
        · intro _
          refine Or.inr ?_
          obtain ⟨-, hv⟩ := h2
          unfold specialNameIs at hv
          cases hve : cfg.version with
          | none => rw [hve] at hv; cases hv
          | some v => simp
        · intro hm; exact absurd hm h2.1
      · rw [if_neg h2]
        by_cases h3 : arg = ""
        · rw [if_pos h3]
          exact core _ (Or.inl rfl) (fun h => h) (fun h => Or.inl h) (fun _ => ⟨rfl, rfl⟩) rfl rfl
        · rw [if_neg h3]
          cases hfind : cfg.options.find? (fun p => p.1 = arg) with
          | none =>
            obtain ⟨d1, d2, d3, d4⟩ := deferOnce_fields st
              ("Unknown option [" ++ arg ++ "] encountered.")
            exact core _ (Or.inl d1) (fun h => by rw [d2]; exact h)
              (fun h => Or.inl (by rw [d2] at h; exact h))
              (fun _ => ⟨d1, d2⟩) d3 d4
          | some pr =>
            obtain ⟨a1, a2, a3, a4⟩ := applyOptionEntry_fields st rest payload hp false pr.2
            exact core _ (Or.inl a1) (fun h => by rw [a2]; exact h)
              (fun h => Or.inl (by rw [a2] at h; exact h))
              (fun _ => ⟨a1, a2⟩) a3 a4
  · rw [if_neg hfn]
    obtain ⟨ih1, ih2, ih3, ih4, ih5, ih6⟩ :=
      fParseAbbrevChars_print cfg payload hp arg.data st rest false
    exact core _ ih1 ih2 ih3 ih4 ih5 ih6

/-- The same invariants for one ordinary (non-special) scan step; the
positional buffer can only grow. -/
theorem stepOrdinary_print (cfg : ValidConfig) (st : ScanState) (t : String)
    (rest : List String) :
    ((stepOrdinary cfg st t rest).1.printHelp = st.printHelp
      ∨ (stepOrdinary cfg st t rest).1.printHelp ≠ PrintOption.none)
    ∧ (st.printVersion = true → (stepOrdinary cfg st t rest).1.printVersion = true)
    ∧ ((stepOrdinary cfg st t rest).1.printVersion = true →
        st.printVersion = true ∨ cfg.version.isSome)
    ∧ (cfg.program = "" →
        (stepOrdinary cfg st t rest).1.printHelp = st.printHelp
        ∧ (stepOrdinary cfg st t rest).1.printVersion = st.printVersion) := by
  unfold stepOrdinary handleDashToken handleGroupToken
  repeat' split
  all_goals try exact ⟨Or.inl rfl, fun h => h, fun h => Or.inl h, fun _ => ⟨rfl, rfl⟩⟩
  all_goals try
    (obtain ⟨d1, d2, d3, d4⟩ := deferOnce_fields st
      ("Unknown " ++ st.topMost.groupName ++ " [" ++ t ++ "] encountered.")
     exact ⟨Or.inl d1, fun h => by rw [d2]; exact h,
       fun h => Or.inl (by rw [d2] at h; exact h), fun _ => ⟨d1, d2⟩⟩)
  all_goals obtain ⟨p1, p2, p3, p4, p5, p6⟩ := fParseOptional_print cfg st rest _ _ _ _
  all_goals exact ⟨p1, p2, p3, p4⟩

/-- The same invariants for the full scan step. -/
theorem stepToken_print (cfg : ValidConfig) (st : ScanState) (t : String)
    (rest : List String) :
    ((stepToken cfg st t rest).1.printHelp = st.printHelp
      ∨ (stepToken cfg st t rest).1.printHelp ≠ PrintOption.none)
    ∧ (st.printVersion = true → (stepToken cfg st t rest).1.printVersion = true)
    ∧ ((stepToken cfg st t rest).1.printVersion = true →
        st.printVersion = true ∨ cfg.version.isSome) := by
  unfold stepToken
  split
  · split
    · exact ⟨Or.inr (by split <;> simp), fun h => h, fun h => Or.inl h⟩
    · split
      · rename_i hnh hcond
        refine ⟨Or.inl rfl, fun _ => rfl, fun _ => Or.inr ?_⟩
        unfold specialGroupMatch specialAbbrevIs specialNameIs at hcond
        cases hve : cfg.version with
        | none => rw [hve] at hcond; split at hcond <;> cases hcond
        | some v => simp
      · obtain ⟨p1, p2, p3, p4⟩ := stepOrdinary_print cfg st t rest
        exact ⟨p1, p2, p3⟩
  · obtain ⟨p1, p2, p3, p4⟩ := stepOrdinary_print cfg st t rest
    exact ⟨p1, p2, p3⟩

/-- Scan-level print-flag monotonicity and version consistency. -/
theorem scanTokens_print (cfg : ValidConfig) :
    ∀ (n : Nat) (toks : List String), toks.length ≤ n → ∀ (st : ScanState),
      ((st.printHelp ≠ PrintOption.none ∨ st.printVersion = true) →
        ((scanTokens cfg st toks).printHelp ≠ PrintOption.none
          ∨ (scanTokens cfg st toks).printVersion = true))
      ∧ ((scanTokens cfg st toks).printVersion = true →
          st.printVersion = true ∨ cfg.version.isSome) := by
  intro n
  induction n with
  | zero =>
    intro toks hlen st
    have : toks = [] := List.length_eq_zero.mp (Nat.le_zero.mp hlen)
    subst this
    exact ⟨fun h => by simpa [scanTokens] using h, fun h => Or.inl (by simpa [scanTokens] using h)⟩
  | succ n ih =>
    intro toks hlen st
    cases toks with
    | nil =>
      exact ⟨fun h => by simpa [scanTokens] using h,
        fun h => Or.inl (by simpa [scanTokens] using h)⟩
    | cons t rest =>
      have hrest : (stepToken cfg st t rest).2.length ≤ n := by
        have := stepToken_rest_le cfg st t rest
        simp at hlen
        omega
      have hstep := stepToken_print cfg st t rest
      have hrec := ih (stepToken cfg st t rest).2 hrest (stepToken cfg st t rest).1
      rw [show scanTokens cfg st (t :: rest)
          = scanTokens cfg (stepToken cfg st t rest).1 (stepToken cfg st t rest).2 from by
        rw [scanTokens]]
      refine ⟨?_, ?_⟩
      · intro h
        refine hrec.1 ?_
        rcases h with h | h
        · rcases hstep.1 with h2 | h2
          · exact Or.inl (by rw [h2]; exact h)
          · exact Or.inl h2
        · exact Or.inr (hstep.2.1 h)
      · intro h
        rcases hrec.2 h with h2 | h2
        · exact hstep.2.2 h2
        · exact Or.inr h2

/-! ## Claim C4: help/version short-circuit priority -/

theorem String.append_ne_empty_of_right (a b : String) (hb : b ≠ "") : a ++ b ≠ "" := by
  intro h
  apply hb
  have hd := congrArg String.data h
  rw [String.data_append] at hd
  have := List.append_eq_nil.mp hd
  cases b
  simp_all

/-- `ValidateConfig` copies program, version text and the special entries
into the validated configuration, and a configured version entry implies a
non-empty version text. -/
theorem ValidateConfig_ok_header (cfg : ConfigSpec) (vc : ValidConfig)
    (h : ValidateConfig cfg = .ok vc) :
    vc.program = cfg.program ∧ vc.versionText = cfg.versionText
    ∧ vc.help = cfg.helpEntry ∧ vc.version = cfg.versionEntry
    ∧ (vc.version.isSome → vc.versionText ≠ "") := by
  unfold ValidateConfig at h
  simp only [bind, Except.bind, pure, Except.pure, throw, throwThe, MonadExceptOf.throw] at h
  repeat' split at h
  all_goals try simp only [reduceCtorEq] at h
  all_goals simp only [Except.ok.injEq] at h
  all_goals subst h
  all_goals simp_all

theorem fAddNewLine_buffer_le (st : HelpState) (e : Bool) :
    st.buffer.length ≤ (fAddNewLine st e).buffer.length := by
  unfold fAddNewLine
  repeat' split
  all_goals simp [String.length_append]
  all_goals omega

theorem fAddToken_buffer_le (st : HelpState) (a : String) :
    st.buffer.length ≤ (fAddToken st a).buffer.length := by
  unfold fAddToken
  split
  all_goals simp [String.length_append]
  all_goals omega

theorem fAddSpacedToken_buffer_le (st : HelpState) (a : String) :
    st.buffer.length ≤ (fAddSpacedToken st a).buffer.length := by
  unfold fAddSpacedToken
  repeat' split
  all_goals refine le_trans ?_ (fAddToken_buffer_le _ a)
  all_goals simp [String.length_append]
  all_goals omega

theorem fAddStringFlush_buffer_le (st : HelpState) (offset : Nat) (tp : String) :
    st.buffer.length ≤ (fAddStringFlush st offset tp).buffer.length := by
  unfold fAddStringFlush
  split
  all_goals simp [String.length_append]
  all_goals omega

theorem fAddStringLoop_buffer_le (offset : Nat) :
    ∀ (cs : List Char) (st : HelpState) (tp : String) (iw : Bool),
      st.buffer.length ≤ (fAddStringLoop offset st tp iw cs).buffer.length := by
  intro cs
  induction cs with
  | nil =>
    intro st tp iw
    unfold fAddStringLoop
    split
    · exact fAddStringFlush_buffer_le st offset tp
    · exact le_refl _
  | cons c cs ih =>
    intro st tp iw
    unfold fAddStringLoop
    by_cases hc : ¬ c.isWhitespace = true
    · rw [if_pos hc]
      exact ih st _ false
    · rw [if_neg hc]
      dsimp only
      set st2 := if ¬ iw = true then fAddStringFlush st offset tp else st with hst2
      have hflush : st.buffer.length ≤ st2.buffer.length := by
        rw [hst2]
        split
        · exact fAddStringFlush_buffer_le st offset tp
        · exact le_refl _
      by_cases h1 : c = '\n'
      · rw [if_pos h1]
        refine le_trans hflush ?_
        refine le_trans ?_ (ih _ "" true)
        dsimp only
        simp only [String.length_append]
        omega
      · rw [if_neg h1]
        by_cases h2 : c = '\t'
        · rw [if_pos h2]
          refine le_trans hflush ?_
          exact ih { st2 with openWhiteSpace := st2.openWhiteSpace + 4 } "" true
        · rw [if_neg h2]
          refine le_trans hflush ?_
          exact ih { st2 with openWhiteSpace := st2.openWhiteSpace + 1 } "" true

theorem fAddString_buffer_le (st : HelpState) (a : String) (offset indent : Nat) :
    st.buffer.length ≤ (fAddString st a offset indent).buffer.length := by
  unfold fAddString
  dsimp only
  refine le_trans ?_ (fAddStringLoop_buffer_le _ a.data _ "" true)
  repeat' split
  all_goals simp [String.length_append]
  all_goals omega

/-- Every emission of the help formatter only appends to the buffer. -/
theorem runHelpOp_buffer_le (st : HelpState) (op : HelpOp) :
    st.buffer.length ≤ (runHelpOp st op).buffer.length := by
  cases op with
  | newLine e => exact fAddNewLine_buffer_le st e
  | token a => exact fAddToken_buffer_le st a
  | spacedToken a => exact fAddSpacedToken_buffer_le st a
  | text a o i => exact fAddString_buffer_le st a o i

/-- Whatever the help formatter emits after the usage head, the buffer
never shrinks. -/
theorem runHelpOps_buffer_le :
    ∀ (ops : List HelpOp) (st : HelpState),
      st.buffer.length ≤ (runHelpOps st ops).buffer.length := by
  intro ops
  induction ops with
  | nil => intro st; exact le_refl _
  | cons op ops ih =>
    intro st
    exact le_trans (runHelpOp_buffer_le st op) (ih (runHelpOp st op))

/-- The usage head is non-empty: the very first `fAddToken` writes
`"Input>"` or `"Usage: "` onto the empty buffer. -/
theorem fBuildUsageHead_buffer_pos (cfg : ValidConfig) (prog : String) (n : Nat) :
    0 < (fBuildUsageHead cfg prog n).buffer.length := by
  unfold fBuildUsageHead
  dsimp only
  by_cases hp : cfg.program = ""
  · rw [if_pos hp, if_neg (by simp [hp])]
    simp [fAddToken, helpInit, String.length_append]
    decide
  · rw [if_neg hp, if_pos hp]
    refine lt_of_lt_of_le ?_ (fAddToken_buffer_le _ prog)
    simp [fAddToken, helpInit, String.length_append]
    decide

/-- `buildHelpString` never returns an empty string: its first emission is
the non-empty usage token and all later emissions only append. -/
theorem renderHelp_ne_empty (cfg : ValidConfig) (prog : String) (r : Bool) :
    renderHelp cfg prog r ≠ "" := by
  unfold renderHelp
  intro h
  have hlen := congrArg String.length h
  have := lt_of_lt_of_le (fBuildUsageHead_buffer_pos cfg prog NumCharsHelp)
    (runHelpOps_buffer_le (helpTailOps cfg r) (fBuildUsageHead cfg prog NumCharsHelp))
  rw [hlen] at this
  simp at this

/-- `postScan` with only the version flag raised prints the version text. -/
theorem postScan_version_only (cfg : ValidConfig) (prog : String) (st : ScanState)
    (hh : st.printHelp = PrintOption.none) (hv : st.printVersion = true)
    (hne : renderVersion cfg prog ≠ "") :
    postScan cfg prog st = .printRequested (renderVersion cfg prog) := by
  unfold postScan
  dsimp only
  rw [if_pos hv, hh]
  simp only [ne_eq, not_true_eq_false, if_false]
  rw [if_pos hne]

/-- `postScan` with the help flag raised prints a non-empty text. -/
theorem postScan_help_raised (cfg : ValidConfig) (prog : String) (st : ScanState)
    (hh : st.printHelp ≠ PrintOption.none) :
    ∃ s, postScan cfg prog st = .printRequested s ∧ s ≠ "" := by
  unfold postScan
  dsimp only
  rw [if_pos hh]
  have hne := String.append_ne_empty_of_right
    (if (if st.printVersion = true then renderVersion cfg prog else "") = "" then ""
      else (if st.printVersion = true then renderVersion cfg prog else "") ++ "\n\n")
    (renderHelp cfg prog (match cfg.help with
      | some h => decide (st.printHelp = PrintOption.reduced) && h.reducible
      | none => false))
    (renderHelp_ne_empty cfg prog _)
  rw [if_pos hne]
  exact ⟨_, rfl, hne⟩

/-- C4: once a help or version entry has been triggered at any point of the
scan, the post-scan decision is a `PrintRequested` signal with non-empty
text — positional and option verification are skipped and any deferred
scan-time error is overridden. -/
theorem c4_print_short_circuit (cfg0 : ConfigSpec) (vc : ValidConfig) (prog : String)
    (st : ScanState) (toks : List String)
    (hok : ValidateConfig cfg0 = .ok vc)
    (hver : st.printVersion = true → vc.version.isSome)
    (htrig : st.printHelp ≠ PrintOption.none ∨ st.printVersion = true) :
    ∃ s, postScan vc prog (scanTokens vc st toks) = .printRequested s ∧ s ≠ "" := by
  obtain ⟨hfin, hcons⟩ := scanTokens_print vc toks.length toks (le_refl _) st
  have htrig2 := hfin htrig
  have hverOk : (scanTokens vc st toks).printVersion = true → vc.version.isSome = true := by
    intro h
    rcases hcons h with h2 | h2
    · exact hver h2
    · exact h2
  have hvtext : vc.version.isSome → vc.versionText ≠ "" :=
    (ValidateConfig_ok_header cfg0 vc hok).2.2.2.2
  by_cases hh : (scanTokens vc st toks).printHelp = PrintOption.none
  · have hv : (scanTokens vc st toks).printVersion = true := by tauto
    have htext := hvtext (hverOk hv)
    have hne : renderVersion vc prog ≠ "" := by
      unfold renderVersion
      split
      · exact htext
      · exact String.append_ne_empty_of_right _ _ htext
    exact ⟨_, postScan_version_only vc prog _ hh hv hne, hne⟩
  · exact postScan_help_raised vc prog _ hh

/-- A program-mode configuration with only a help entry. -/
def progHelpConfig : ConfigSpec :=
  { program := "prog", versionText := "",
    helpEntry := some ⟨"help", some 'h', false, "", ""⟩, versionEntry := none,
    args := .mk none none [] [] [] "" [] [] 0 none none "" "" }

/-- The validated form of `progHelpConfig`. -/
def progHelpValid : ValidConfig :=
  { program := "prog", versionText := "",
    help := some ⟨"help", some 'h', false, "", ""⟩, version := none,
    options := [], abbreviations := [],
    root := .mk [⟨[], 0, 0, 0, 0, false⟩] [] "mode" }

/-- A scan state in which help was triggered although a deferred error was
recorded earlier in the same scan. -/
def triggeredWithDeferredState : ScanState :=
  { topMost := .mk [⟨[], 0, 0, 0, 0, false⟩] [] "mode",
    flags := [], options := [], positionals := [], groupIds := [],
    deferred := some "Unknown option [unknown] encountered.",
    printHelp := PrintOption.reduced, printVersion := false, positionalLocked := false }

/-- C4 witness: with help triggered and a deferred error pending, the
post-scan outcome is still a print request. -/
theorem c4_print_short_circuit_witness :
    ∃ s, postScan progHelpValid "prog"
        (scanTokens progHelpValid triggeredWithDeferredState []) = .printRequested s ∧ s ≠ "" :=
  c4_print_short_circuit progHelpConfig progHelpValid "prog" triggeredWithDeferredState []
    rfl (by decide) (by decide)

/-! ## Claim C9: menu-mode help/version gating on the positional buffer -/

/-- C9: in menu mode a token matching the help or version entry (by name,
or by abbreviation for single-character tokens) acts as a trigger only
while the raw positional buffer is empty — the token is consumed and only
the print flag changes; once a positional has been collected the special
match is skipped entirely: the print flags survive unchanged and the token
is handled as an ordinary group selector or positional. -/
theorem c9_menu_special_gating (cfg : ValidConfig) (st : ScanState) (t : String)
    (rest : List String) (hmenu : cfg.program = "")
    (hmatch : specialGroupMatch cfg.help t = true ∨ specialGroupMatch cfg.version t = true) :
    (st.positionals = [] →
      ((stepToken cfg st t rest).1.printHelp ≠ PrintOption.none
        ∨ (stepToken cfg st t rest).1.printVersion = true)
      ∧ (stepToken cfg st t rest).2 = rest
      ∧ (stepToken cfg st t rest).1.positionals = st.positionals
      ∧ (stepToken cfg st t rest).1.topMost = st.topMost
      ∧ (stepToken cfg st t rest).1.deferred = st.deferred)
    ∧ (st.positionals ≠ [] →
      stepToken cfg st t rest = stepOrdinary cfg st t rest
      ∧ (stepToken cfg st t rest).1.printHelp = st.printHelp
      ∧ (stepToken cfg st t rest).1.printVersion = st.printVersion
      ∧ (st.positionalLocked = true ∨ t.data.head? ≠ some '-' →
          (st.topMost.endpoints = [] →
            stepToken cfg st t rest = handleGroupToken cfg st t rest)
          ∧ (st.topMost.endpoints ≠ [] →
            stepToken cfg st t rest
              = ({ st with positionals := st.positionals ++ [Value.vStr t] }, rest)))) := by
  constructor
  · intro hempty
    unfold stepToken
    rw [if_pos ⟨hmenu, hempty⟩]
    rcases hmatch with hm | hm
    · rw [if_pos hm]
      refine ⟨Or.inl (by split <;> simp), rfl, rfl, rfl, rfl⟩
    · by_cases hh : specialGroupMatch cfg.help t = true
      · rw [if_pos hh]
        refine ⟨Or.inl (by split <;> simp), rfl, rfl, rfl, rfl⟩
      · rw [if_neg hh, if_pos hm]
        exact ⟨Or.inr rfl, rfl, rfl, rfl, rfl⟩
  · intro hne
    have hstep : stepToken cfg st t rest = stepOrdinary cfg st t rest := by
      unfold stepToken
      rw [if_neg (by intro hc; exact hne hc.2)]
    obtain ⟨-, -, -, hpm⟩ := stepOrdinary_print cfg st t rest
    obtain ⟨e1, e2⟩ := hpm hmenu
    refine ⟨hstep, by rw [hstep]; exact e1, by rw [hstep]; exact e2, ?_⟩
    intro hplain
    have hdash : ¬ (¬ st.positionalLocked = true ∧ t.data.head? = some '-') := by
      rcases hplain with h | h
      · simp [h]
      · simp [h]
    constructor
    · intro hgroups
      rw [hstep]
      unfold stepOrdinary
      rw [if_neg hdash, if_pos hgroups]
    · intro hgroups
      rw [hstep]
      unfold stepOrdinary
      rw [if_neg hdash, if_neg hgroups]

/-- The validated form of a one-group menu configuration. -/
def menuCopyValid : ValidConfig :=
  { program := "", versionText := "",
    help := some ⟨"help", some 'h', false, "", ""⟩, version := none,
    options := [], abbreviations := [],
    root := .mk []
      [("copy", some 'c', 7,
        .mk [⟨[⟨"src", .prim .any, none, "", ""⟩], 0, 1, 1, 1, false⟩] [] "mode")] "mode" }

/-- A menu-mode scan state that has already collected one positional. -/
def menuAfterPositionalState : ScanState :=
  { topMost := .mk [⟨[⟨"src", .prim .any, none, "", ""⟩], 0, 1, 1, 1, false⟩] [] "mode",
    flags := [], options := [], positionals := [Value.vStr "x"], groupIds := [7],
    deferred := none, printHelp := PrintOption.none, printVersion := false,
    positionalLocked := false }

/-- C9 witness: the gating applied to the token `help` in a menu state with
one collected positional. -/
theorem c9_menu_special_gating_witness :
    (menuAfterPositionalState.positionals = [] →
      ((stepToken menuCopyValid menuAfterPositionalState "help" []).1.printHelp
          ≠ PrintOption.none
        ∨ (stepToken menuCopyValid menuAfterPositionalState "help" []).1.printVersion = true)
      ∧ (stepToken menuCopyValid menuAfterPositionalState "help" []).2 = []
      ∧ (stepToken menuCopyValid menuAfterPositionalState "help" []).1.positionals
          = menuAfterPositionalState.positionals
      ∧ (stepToken menuCopyValid menuAfterPositionalState "help" []).1.topMost
          = menuAfterPositionalState.topMost
      ∧ (stepToken menuCopyValid menuAfterPositionalState "help" []).1.deferred
          = menuAfterPositionalState.deferred)
    ∧ (menuAfterPositionalState.positionals ≠ [] →
      stepToken menuCopyValid menuAfterPositionalState "help" []
        = stepOrdinary menuCopyValid menuAfterPositionalState "help" []
      ∧ (stepToken menuCopyValid menuAfterPositionalState "help" []).1.printHelp
          = menuAfterPositionalState.printHelp
      ∧ (stepToken menuCopyValid menuAfterPositionalState "help" []).1.printVersion
          = menuAfterPositionalState.printVersion
      ∧ (menuAfterPositionalState.positionalLocked = true
          ∨ ("help" : String).data.head? ≠ some '-' →
          (menuAfterPositionalState.topMost.endpoints = [] →
            stepToken menuCopyValid menuAfterPositionalState "help" []
              = handleGroupToken menuCopyValid menuAfterPositionalState "help" [])
          ∧ (menuAfterPositionalState.topMost.endpoints ≠ [] →
            stepToken menuCopyValid menuAfterPositionalState "help" []
              = ({ menuAfterPositionalState with
                  positionals := menuAfterPositionalState.positionals
                    ++ [Value.vStr "help"] }, [])))) :=
  c9_menu_special_gating menuCopyValid menuAfterPositionalState "help" [] rfl
    (Or.inl (by decide))

/-! ## Claim C10: global option name/abbreviation uniqueness -/

mutual

/-- All options declared anywhere in a specification subtree, in traversal
order. -/
def collectOptions : ArgsSpec → List OptionSpec
  | .mk _ _ _ opts _ _ groups _ _ _ _ _ _ => opts ++ collectOptionsGroups groups

def collectOptionsGroups : List (GroupHead × ArgsSpec) → List OptionSpec
  | [] => []
  | (_, body) :: rest => collectOptions body ++ collectOptionsGroups rest

end

/-- State effect of validating one option: its name and (optional)
abbreviation are appended to the global maps, and both were fresh. -/
theorem ValidateOption_state_spec (ctx : VCtx) (opt : OptionSpec) (hidden : Bool)
    (st st2 : VState) (h : ValidateOption ctx opt hidden st = .ok st2) :
    st2.options.map Prod.fst = st.options.map Prod.fst ++ [opt.name]
    ∧ st2.abbreviations.map Prod.fst = st.abbreviations.map Prod.fst ++ opt.abbreviation.toList
    ∧ st.options.find? (fun p => p.1 = opt.name) = none
    ∧ (∀ a, opt.abbreviation = some a → st.abbreviations.find? (fun p => p.1 = a) = none) := by
  unfold ValidateOption at h
  simp only [bind, Except.bind, pure, Except.pure, throw, throwThe, MonadExceptOf.throw] at h
  repeat' split at h
  all_goals try simp only [reduceCtorEq] at h
  all_goals simp only [Except.ok.injEq] at h
  all_goals subst h
  all_goals simp_all [Option.toList, Option.not_isSome_iff_eq_none]
  all_goals rename_i x1 v1 x2 v2 hlen hdash hfind habbm hidm htail
  all_goals cases hab : opt.abbreviation with
    | none =>
      rw [hab] at habbm
      dsimp only at habbm
      simp only [Except.ok.injEq] at habbm
      subst habbm
      simp [hab] at hfind ⊢
      intro a b hmem ha
      subst ha
      exact hfind b hmem
    | some c =>
      rw [hab] at habbm
      dsimp only at habbm
      by_cases hfa : (st.abbreviations.find? (fun p => p.1 = c)).isSome = true
      · rw [if_pos hfa] at habbm
        exact absurd habbm (by simp)
      · rw [if_neg hfa] at habbm
        simp only [Except.ok.injEq] at habbm
        subst habbm
        have hnone := List.find?_eq_none.mp (Option.not_isSome_iff_eq_none.mp hfa)
        simp [hab] at hfind hnone ⊢
        refine ⟨?_, ?_⟩
        · intro a b hmem ha
          subst ha
          exact hfind b hmem
        · intro a b hmem ha
          subst ha
          exact hnone a b hmem rfl

/-- State effect of the option loop. -/
theorem ValidateOptions_state_spec (ctx : VCtx) (hidden : Bool) :
    ∀ (opts : List OptionSpec) (st st2 : VState),
      ValidateOptions ctx hidden st opts = .ok st2 →
      st2.options.map Prod.fst = st.options.map Prod.fst ++ opts.map (fun o => o.name)
      ∧ st2.abbreviations.map Prod.fst
          = st.abbreviations.map Prod.fst ++ opts.filterMap (fun o => o.abbreviation)
      ∧ ((st.options.map Prod.fst).Nodup → (st2.options.map Prod.fst).Nodup)
      ∧ ((st.abbreviations.map Prod.fst).Nodup → (st2.abbreviations.map Prod.fst).Nodup) := by
  intro opts
  induction opts with
  | nil =>
    intro st st2 h
    unfold ValidateOptions at h
    simp only [pure, Except.pure, Except.ok.injEq] at h
    subst h
    exact ⟨by simp, by simp, fun h => h, fun h => h⟩
  | cons o rest ih =>
    intro st st2 h
    unfold ValidateOptions at h
    simp only [bind, Except.bind] at h
    cases h1 : ValidateOption ctx o hidden st with
    | error e => rw [h1] at h; cases h
    | ok stm =>
      rw [h1] at h
      obtain ⟨o1, o2, o3, o4⟩ := ValidateOption_state_spec ctx o hidden st stm h1
      obtain ⟨r1, r2, r3, r4⟩ := ih stm st2 h
      refine ⟨?_, ?_, ?_, ?_⟩
      · rw [r1, o1]
        simp
      · rw [r2, o2]
        cases ha : o.abbreviation <;> simp [Option.toList, List.filterMap_cons, ha]
      · intro hn
        refine r3 ?_
        rw [o1]
        rw [List.nodup_append]
        refine ⟨hn, List.nodup_singleton _, ?_⟩
        intro x hx
        simp only [List.mem_singleton]
        intro hx2
        subst hx2
        have hfn := List.find?_eq_none.mp o3
        obtain ⟨p, hp, hpe⟩ := List.mem_map.mp hx
        have := hfn p hp
        simp [hpe] at this
      · intro hn
        refine r4 ?_
        rw [o2]
        cases ha : o.abbreviation with
        | none => simpa [Option.toList] using hn
        | some a =>
          simp only [Option.toList]
          rw [List.nodup_append]
          refine ⟨hn, List.nodup_singleton _, ?_⟩
          intro x hx
          simp only [List.mem_singleton]
          intro hx2
          subst hx2
          have hfn := List.find?_eq_none.mp (o4 _ ha)
          obtain ⟨p, hp, hpe⟩ := List.mem_map.mp hx
          have := hfn p hp
          simp [hpe] at this

/-- State effect of the node-leading validation. -/
theorem ValidateArgumentsPre_state_spec (ctx : VCtx) (args : ArgsSpec)
    (gh hid rgo ngo : Bool) (st : VState) (out : VState × String × Bool × Bool × Bool)
    (h : ValidateArgumentsPre ctx args gh hid rgo ngo st = .ok out) :
    out.1.options.map Prod.fst = st.options.map Prod.fst ++ args.options.map (fun o => o.name)
    ∧ out.1.abbreviations.map Prod.fst
        = st.abbreviations.map Prod.fst ++ args.options.filterMap (fun o => o.abbreviation)
    ∧ ((st.options.map Prod.fst).Nodup → (out.1.options.map Prod.fst).Nodup)
    ∧ ((st.abbreviations.map Prod.fst).Nodup → (out.1.abbreviations.map Prod.fst).Nodup) := by
  obtain ⟨rmin, rmax, ps, opts, infos, gname, groups, eps, epid, gr, gn, dn, dr⟩ := args
  unfold ValidateArgumentsPre at h
  simp only [bind, Except.bind, pure, Except.pure, throw, throwThe, MonadExceptOf.throw] at h
  repeat' split at h
  all_goals try simp only [reduceCtorEq] at h
  all_goals rename_i hgrc x2 v2 hdesc x1 v1 hinfo x0 v0 hopts hgname
  all_goals simp only [Except.ok.injEq] at h
  all_goals subst h
  all_goals simpa using ValidateOptions_state_spec ctx (hid || gh) opts st v0 hopts

/-- Combined node/group-list state effect, by strong induction on size: a
successful validation appends exactly the names (and declared abbreviation
characters) of all options of the subtree, each fresh at insertion time. -/
theorem validate_options_master (n : Nat) :
    (∀ (args : ArgsSpec), sizeOf args ≤ n →
      ∀ (ctx : VCtx) (gh hid rgo ngo : Bool) (st : VState) (st2 : VState) (v : ValidArguments),
        ValidateArguments ctx args gh hid rgo ngo st = .ok (st2, v) →
        st2.options.map Prod.fst
            = st.options.map Prod.fst ++ (collectOptions args).map (fun o => o.name)
        ∧ st2.abbreviations.map Prod.fst
            = st.abbreviations.map Prod.fst
              ++ (collectOptions args).filterMap (fun o => o.abbreviation)
        ∧ ((st.options.map Prod.fst).Nodup → (st2.options.map Prod.fst).Nodup)
        ∧ ((st.abbreviations.map Prod.fst).Nodup → (st2.abbreviations.map Prod.fst).Nodup))
    ∧ (∀ (gs : List (GroupHead × ArgsSpec)), sizeOf gs ≤ n →
      ∀ (ctx : VCtx) (ph rgo ngo : Bool) (st : VState)
        (acc : List (String × Option Char × Nat × ValidArguments))
        (st2 : VState) (out : List (String × Option Char × Nat × ValidArguments)),
        ValidateGroups ctx ph rgo ngo st acc gs = .ok (st2, out) →
        st2.options.map Prod.fst
            = st.options.map Prod.fst ++ (collectOptionsGroups gs).map (fun o => o.name)
        ∧ st2.abbreviations.map Prod.fst
            = st.abbreviations.map Prod.fst
              ++ (collectOptionsGroups gs).filterMap (fun o => o.abbreviation)
        ∧ ((st.options.map Prod.fst).Nodup → (st2.options.map Prod.fst).Nodup)
        ∧ ((st.abbreviations.map Prod.fst).Nodup → (st2.abbreviations.map Prod.fst).Nodup)) := by
  induction n with
  | zero =>
    constructor
    · intro args hsz
      obtain ⟨rmin, rmax, ps, opts, infos, gname, groups, eps, epid, gr, gn, dn, dr⟩ := args
      simp at hsz
    · intro gs hsz
      cases gs with
      | nil =>
        intro ctx ph rgo ngo st acc st2 out h
        unfold ValidateGroups at h
        simp only [pure, Except.pure, Except.ok.injEq, Prod.mk.injEq] at h
        obtain ⟨h1, -⟩ := h
        subst h1
        exact ⟨by simp [collectOptionsGroups], by simp [collectOptionsGroups],
          fun h => h, fun h => h⟩
      | cons g rest =>
        simp at hsz
  | succ n ih =>
    constructor
    · intro args hsz ctx gh hid rgo ngo st st2 v h
      obtain ⟨rmin, rmax, ps, opts, infos, gname, groups, eps, epid, gr, gn, dn, dr⟩ := args
      have hgs : sizeOf groups ≤ n := by
        simp at hsz
        omega
      unfold ValidateArguments at h
      simp only [bind, Except.bind, pure, Except.pure, throw, throwThe,
        MonadExceptOf.throw] at h
      cases hpre : ValidateArgumentsPre ctx
          (.mk rmin rmax ps opts infos gname groups eps epid gr gn dn dr)
          gh hid rgo ngo st with
      | error e => rw [hpre] at h; cases h
      | ok pre =>
        obtain ⟨p1, p2, p3, p4⟩ := ValidateArgumentsPre_state_spec ctx _ gh hid rgo ngo st pre hpre
        simp only [ArgsSpec.options] at p1 p2 p3 p4
        obtain ⟨stp, gnm, rg2, ng2, mh⟩ := pre
        dsimp only at p1 p2 p3 p4
        rw [hpre] at h
        simp only [Except.bind] at h
        cases groups with
        | cons g0 grest =>
          dsimp only at h
          by_cases hge : ps ≠ [] ∨ eps ≠ []
          · rw [if_pos hge] at h
            simp only [Except.bind, reduceCtorEq] at h
          · rw [if_neg hge] at h
            cases hgr : ValidateGroups ctx mh rg2 ng2 stp [] (g0 :: grest) with
            | error e => rw [hgr] at h; simp only [reduceCtorEq] at h
            | ok pr =>
              obtain ⟨stg, sub⟩ := pr
              rw [hgr] at h
              simp only [Except.ok.injEq, Prod.mk.injEq] at h
              obtain ⟨h1, -⟩ := h
              subst h1
              obtain ⟨g1, g2, g3, g4⟩ := ih.2 (g0 :: grest) hgs ctx mh rg2 ng2 stp [] stg sub hgr
              refine ⟨?_, ?_, fun hn => g3 (p3 hn), fun hn => g4 (p4 hn)⟩
              · rw [g1, p1]
                simp [collectOptions, collectOptionsGroups]
              · rw [g2, p2]
                simp [collectOptions, collectOptionsGroups]
        | nil =>
          dsimp only at h
          cases hne : ValidateNodeEndpoints ctx.help mh rmin rmax ps eps epid with
          | error e => rw [hne] at h; simp only [Except.bind, reduceCtorEq] at h
          | ok sorted =>
            rw [hne] at h
            simp only [Except.bind, Except.ok.injEq, Prod.mk.injEq] at h
            obtain ⟨h1, -⟩ := h
            subst h1
            refine ⟨?_, ?_, p3, p4⟩
            · rw [p1]
              simp [collectOptions, collectOptionsGroups]
            · rw [p2]
              simp [collectOptions, collectOptionsGroups]
    · intro gs hsz ctx ph rgo ngo st acc st2 out h
      cases gs with
      | nil =>
        unfold ValidateGroups at h
        simp only [pure, Except.pure, Except.ok.injEq, Prod.mk.injEq] at h
        obtain ⟨h1, -⟩ := h
        subst h1
        exact ⟨by simp [collectOptionsGroups], by simp [collectOptionsGroups],
          fun h => h, fun h => h⟩
      | cons g rest =>
        obtain ⟨ghead, gbody⟩ := g
        have hbody : sizeOf gbody ≤ n := by
          simp at hsz
          omega
        have hrest : sizeOf rest ≤ n := by
          simp at hsz
          omega
        unfold ValidateGroups at h
        simp only [bind, Except.bind, pure, Except.pure, throw, throwThe,
          MonadExceptOf.throw] at h
        cases hhd : ValidateGroupHead ctx acc ghead with
        | error e => rw [hhd] at h; cases h
        | ok u =>
          rw [hhd] at h
          cases harg : ValidateArguments ctx gbody ghead.hidden ph rgo ngo st with
          | error e => rw [harg] at h; cases h
          | ok pr =>
            rw [harg] at h
            obtain ⟨a1, a2, a3, a4⟩ := ih.1 gbody hbody ctx ghead.hidden ph rgo ngo st pr.1 pr.2 (by
              rw [harg])
            obtain ⟨r1, r2, r3, r4⟩ := ih.2 rest hrest ctx ph rgo ngo pr.1 _ st2 out h
            refine ⟨?_, ?_, fun hn => r3 (a3 hn), fun hn => r4 (a4 hn)⟩
            · rw [r1, a1]
              simp [collectOptionsGroups]
            · rw [r2, a2]
              simp [collectOptionsGroups]

/-- The root `ValidateArguments` call of a successful `ValidateConfig`,
starting from the empty state. -/
theorem ValidateConfig_ok_rootCall (cfg : ConfigSpec) (vc : ValidConfig)
    (h : ValidateConfig cfg = .ok vc) :
    ∃ st2 root,
      ValidateArguments ⟨cfg.program, cfg.helpEntry, cfg.versionEntry⟩ cfg.args
        false false false true ⟨[], [], []⟩ = .ok (st2, root)
      ∧ vc.options = st2.options ∧ vc.abbreviations = st2.abbreviations ∧ vc.root = root := by
  unfold ValidateConfig at h
  simp only [bind, Except.bind, pure, Except.pure, throw, throwThe, MonadExceptOf.throw] at h
  repeat' split at h
  all_goals try simp only [reduceCtorEq] at h
  all_goals simp only [Except.ok.injEq] at h
  all_goals subst h
  all_goals exact ⟨_, _, by assumption, rfl, rfl, rfl⟩

/-- C10: `ValidateOption` checks names and abbreviations against the single
global maps of the whole configuration, so after a successful `Validate`
the options declared anywhere in the tree — including in unrelated sibling
groups — have pairwise distinct names and pairwise distinct declared
abbreviation characters; any duplicate makes `Validate` fail with a
`ConfigError`. -/
theorem c10_global_option_uniqueness (cfg : ConfigSpec) (vc : ValidConfig)
    (hok : ValidateConfig cfg = .ok vc) :
    ((collectOptions cfg.args).map (fun o => o.name)).Nodup
    ∧ ((collectOptions cfg.args).filterMap (fun o => o.abbreviation)).Nodup := by
  obtain ⟨st2, root, hargs, -, -, -⟩ := ValidateConfig_ok_rootCall cfg vc hok
  obtain ⟨m1, m2, m3, m4⟩ := (validate_options_master (sizeOf cfg.args)).1 cfg.args (le_refl _)
    ⟨cfg.program, cfg.helpEntry, cfg.versionEntry⟩ false false false true
    ⟨[], [], []⟩ st2 root hargs
  constructor
  · have := m3 (by simp)
    rw [m1] at this
    simpa using this
  · have := m4 (by simp)
    rw [m2] at this
    simpa using this

/-- A menu configuration with two sibling groups, each declaring one
option. -/
def twoGroupOptionsConfig : ConfigSpec :=
  { program := "", versionText := "", helpEntry := none, versionEntry := none,
    args := .mk none none [] [] [] ""
      [(⟨"first", none, 1, false⟩,
          .mk none none [] [⟨"alpha", 10, some 'a', "", .prim .any, [], none, none, false, "", ""⟩]
            [] "" [] [] 0 none none "" ""),
        (⟨"second", none, 2, false⟩,
          .mk none none [] [⟨"beta", 11, some 'b', "", .prim .any, [], none, none, false, "", ""⟩]
            [] "" [] [] 0 none none "" "")]
      [] 0 none none "" "" }

/-- C10 witness: the two-sibling-group configuration validates and its
collected option names and abbreviations are pairwise distinct. -/
theorem c10_global_option_uniqueness_witness :
    ((collectOptions twoGroupOptionsConfig.args).map (fun o => o.name)).Nodup
    ∧ ((collectOptions twoGroupOptionsConfig.args).filterMap (fun o => o.abbreviation)).Nodup := by
  cases h : ValidateConfig twoGroupOptionsConfig with
  | error e =>
    have hs : (ValidateConfig twoGroupOptionsConfig).toOption.isSome = true := by decide
    rw [h] at hs
    simp [Except.toOption] at hs
  | ok vc => exact c10_global_option_uniqueness twoGroupOptionsConfig vc h

/-! ## Claim C5: the deferred-error mechanism -/

theorem deferOnce_deferred (st : ScanState) (m : String) :
    (deferOnce st m).deferred = st.deferred.or (some m) := by
  unfold deferOnce
  cases h : st.deferred with
  | none => simp [h]
  | some m2 => simp [h]

theorem applyOptionEntry_deferred (st : ScanState) (rest : List String) (payload : String)
    (hp pu : Bool) (entry : ValidOption) :
    (applyOptionEntry st rest payload hp pu entry).1.deferred = st.deferred := by
  unfold applyOptionEntry
  repeat' split
  all_goals rfl

/-- The deferred slot after the abbreviation run holds the previously
deferred error, or else the first error event of the run. -/
theorem fParseAbbrevChars_deferred (cfg : ValidConfig) (payload : String) (hp : Bool) :
    ∀ (cs : List Char) (st : ScanState) (rest : List String) (pu : Bool),
      (fParseAbbrevChars cfg payload hp st rest pu cs).1.deferred
        = st.deferred.or (abbrevErrors cfg cs).head? := by
  intro cs
  induction cs with
  | nil => intro st rest pu; simp [fParseAbbrevChars, abbrevErrors]
  | cons c cs ih =>
    intro st rest pu
    unfold fParseAbbrevChars
    by_cases h1 : cfg.program ≠ "" ∧ specialAbbrevIs cfg.help c = true
    · rw [if_pos h1]
      rw [show abbrevErrors cfg (c :: cs) = abbrevErrors cfg cs from by
        simp [abbrevErrors, List.filterMap_cons, h1.1, h1.2]]
      dsimp only
      split
      · exact ih _ rest pu
      · exact ih st rest pu
    · rw [if_neg h1]
      by_cases h2 : cfg.program ≠ "" ∧ specialAbbrevIs cfg.version c = true
      · rw [if_pos h2]
        rw [show abbrevErrors cfg (c :: cs) = abbrevErrors cfg cs from by
          simp [abbrevErrors, List.filterMap_cons, h1, h2.1, h2.2]]
        exact ih _ rest pu
      · rw [if_neg h2]
        cases hfind : cfg.abbreviations.find? (fun p => p.1 = c) with
        | none =>
          rw [show abbrevErrors cfg (c :: cs)
              = ("Unknown option abbreviation [" ++ String.singleton c ++ "] encountered.")
                :: abbrevErrors cfg cs from by
            simp [abbrevErrors, List.filterMap_cons, h1, h2, hfind]]
          rw [ih _ rest pu, deferOnce_deferred]
          simp [Option.or_assoc]
        | some pr =>
          rw [show abbrevErrors cfg (c :: cs) = abbrevErrors cfg cs from by
            simp [abbrevErrors, List.filterMap_cons, h1, h2, hfind]]
          dsimp only
          rw [ih _ _ _, applyOptionEntry_deferred]

/-- The deferred slot after one option token. -/
theorem fParseOptional_deferred (cfg : ValidConfig) (st : ScanState) (rest : List String)
    (arg payload : String) (fullName hp : Bool) :
    (fParseOptional cfg st rest arg payload fullName hp).1.deferred
      = st.deferred.or (fParseOptionalErrors cfg st rest arg payload fullName hp).head? := by
  have core :
      ∀ (r : ScanState × List String × Bool) (base : List String),
        r.1.deferred = st.deferred.or base.head? →
        (if hp ∧ r.2.2 = false then
            deferOnce r.1 ("Value [" ++ payload ++ "] not used by option.")
          else r.1).deferred
          = st.deferred.or ((base ++ (if hp ∧ r.2.2 = false then
              ["Value [" ++ payload ++ "] not used by option."]
            else [])).head?) := by
    intro r base hr
    by_cases hc : hp = true ∧ r.2.2 = false
    · rw [if_pos hc, if_pos hc, deferOnce_deferred, hr]
      rw [List.head?_append]
      simp [Option.or_assoc]
    · rw [if_neg hc, if_neg hc, hr]
      simp
  unfold fParseOptional fParseOptionalErrors
  dsimp only
  by_cases hfn : fullName = true
  · simp only [if_pos hfn]
    by_cases h1 : cfg.program ≠ "" ∧ specialNameIs cfg.help arg = true
    · simp only [if_pos h1]
      by_cases hhp : hp = true <;> simp [hhp, deferOnce_deferred]
    · simp only [if_neg h1]
      by_cases h2 : cfg.program ≠ "" ∧ specialNameIs cfg.version arg = true
      · simp only [if_pos h2]
        by_cases hhp : hp = true <;> simp [hhp, deferOnce_deferred]
      · simp only [if_neg h2]
        by_cases h3 : arg = ""
        · simp only [if_pos h3]
          by_cases hhp : hp = true <;> simp [hhp, deferOnce_deferred]
        · simp only [if_neg h3]
          cases hfind : cfg.options.find? (fun p => p.1 = arg) with
          | none =>
            refine core _ ["Unknown option [" ++ arg ++ "] encountered."] ?_
            rw [deferOnce_deferred]
            simp
          | some pr =>
            refine core _ [] ?_
            rw [applyOptionEntry_deferred]
            simp
  · simp only [if_neg hfn]
    exact core _ (abbrevErrors cfg arg.data)
      (fParseAbbrevChars_deferred cfg payload hp arg.data st rest false)

/-- The deferred slot after an option token of the scan loop. -/
theorem handleDashToken_deferred (cfg : ValidConfig) (st : ScanState) (t : String)
    (rest : List String) :
    (handleDashToken cfg st t rest).1.deferred
      = st.deferred.or (handleDashTokenErrors cfg st t rest).head? := by
  unfold handleDashToken handleDashTokenErrors
  split
  · simp
  · exact fParseOptional_deferred cfg st rest _ _ _ _

/-- The deferred slot after a group-selection token. -/
theorem handleGroupToken_deferred (cfg : ValidConfig) (st : ScanState) (t : String)
    (rest : List String) :
    (handleGroupToken cfg st t rest).1.deferred
      = st.deferred.or (handleGroupTokenErrors st t).head? := by
  unfold handleGroupToken handleGroupTokenErrors
  cases h : subLookup st.topMost.sub t with
  | none => rw [deferOnce_deferred]; simp
  | some e => simp

/-- The deferred slot after one ordinary scan step. -/
theorem stepOrdinary_deferred (cfg : ValidConfig) (st : ScanState) (t : String)
    (rest : List String) :
    (stepOrdinary cfg st t rest).1.deferred
      = st.deferred.or (stepOrdinaryErrors cfg st t rest).head? := by
  unfold stepOrdinary stepOrdinaryErrors
  split
  · exact handleDashToken_deferred cfg st t rest
  · split
    · exact handleGroupToken_deferred cfg st t rest
    · simp

/-- The deferred slot after one full scan step. -/
theorem stepToken_deferred (cfg : ValidConfig) (st : ScanState) (t : String)
    (rest : List String) :
    (stepToken cfg st t rest).1.deferred
      = st.deferred.or (stepErrors cfg st t rest).head? := by
  unfold stepToken stepErrors
  split
  · split
    · simp
    · split
      · simp
      · exact stepOrdinary_deferred cfg st t rest
  · exact stepOrdinary_deferred cfg st t rest

/-- Scan-level deferral: after the whole scan the deferred slot holds
exactly the first scan-time error event of the scan, if any. -/
theorem scanTokens_deferred (cfg : ValidConfig) :
    ∀ (n : Nat) (toks : List String), toks.length ≤ n → ∀ (st : ScanState),
      (scanTokens cfg st toks).deferred = st.deferred.or (scanErrors cfg st toks).head? := by
  intro n
  induction n with
  | zero =>
    intro toks hlen st
    have : toks = [] := List.length_eq_zero.mp (Nat.le_zero.mp hlen)
    subst this
    simp [scanTokens, scanErrors]
  | succ n ih =>
    intro toks hlen st
    cases toks with
    | nil => simp [scanTokens, scanErrors]
    | cons t rest =>
      have hrest : (stepToken cfg st t rest).2.length ≤ n := by
        have := stepToken_rest_le cfg st t rest
        simp at hlen
        omega
      rw [show scanTokens cfg st (t :: rest)
          = scanTokens cfg (stepToken cfg st t rest).1 (stepToken cfg st t rest).2 from by
        rw [scanTokens]]
      rw [show scanErrors cfg st (t :: rest)
          = stepErrors cfg st t rest
            ++ scanErrors cfg (stepToken cfg st t rest).1 (stepToken cfg st t rest).2 from by
        rw [scanErrors]]
      rw [ih _ hrest _, stepToken_deferred, List.head?_append, Option.or_assoc]

/-- C5: the scan defers at most one error — the first scan-time error event
(unknown option name, unknown option abbreviation, unknown group token or
unused inline payload, as enumerated by `scanErrors`) — discarding all later
ones; and when neither a help nor a version print was triggered by the end
of the scan, the decision taken directly after the scan raises exactly that
first error as a parse error (and only proceeds to verification when no
scan-time error occurred). -/
theorem c5_deferred_error_mechanism (cfg : ValidConfig) (prog : String) (toks : List String) :
    (scanTokens cfg (initialScanState cfg) toks).deferred
        = (scanErrors cfg (initialScanState cfg) toks).head?
    ∧ ((scanTokens cfg (initialScanState cfg) toks).printHelp = PrintOption.none →
        (scanTokens cfg (initialScanState cfg) toks).printVersion = false →
        postScan cfg prog (scanTokens cfg (initialScanState cfg) toks)
          = match (scanErrors cfg (initialScanState cfg) toks).head? with
            | some e => PostScan.parseError e
            | none => PostScan.proceed (scanTokens cfg (initialScanState cfg) toks)) := by
  have hdef :
      (scanTokens cfg (initialScanState cfg) toks).deferred
        = (scanErrors cfg (initialScanState cfg) toks).head? := by
    rw [scanTokens_deferred cfg toks.length toks (le_refl _) (initialScanState cfg)]
    simp [initialScanState]
  refine ⟨hdef, ?_⟩
  intro hh hv
  unfold postScan
  dsimp only
  rw [hv, hh]
  simp only [ne_eq, not_true_eq_false, if_false, ite_self]
  rw [if_neg (by simp)]
  rw [hdef]

/-- A program-mode configuration with no options and no special entries. -/
def bareProgValid : ValidConfig :=
  { program := "prog", versionText := "", help := none, version := none,
    options := [], abbreviations := [],
    root := .mk [⟨[⟨"file", .prim .any, none, "", ""⟩], 0, 0, 0, 1, false⟩] [] "mode" }

/-- C5 witness: scanning two unknown long options defers only the first
error, and the post-scan decision raises exactly it. -/
theorem c5_deferred_error_mechanism_witness :
    (scanTokens bareProgValid (initialScanState bareProgValid) ["--bogus", "--also"]).deferred
        = (scanErrors bareProgValid (initialScanState bareProgValid) ["--bogus", "--also"]).head?
    ∧ postScan bareProgValid "prog"
        (scanTokens bareProgValid (initialScanState bareProgValid) ["--bogus", "--also"])
      = PostScan.parseError "Unknown option [bogus] encountered." := by
  have h := c5_deferred_error_mechanism bareProgValid "prog" ["--bogus", "--also"]
  refine ⟨h.1, ?_⟩
  have h2 := h.2 (by
    simp +decide [scanTokens, stepToken, stepOrdinary, handleDashToken, fParseOptional,
      initialScanState, bareProgValid, specialGroupMatch, specialNameIs, specialAbbrevIs,
      deferOnce, applyOptionEntry, fParseAbbrevChars, optionsEnsure, optionsSet,
      optionsLookup, flagsInsert]) (by
    simp +decide [scanTokens, stepToken, stepOrdinary, handleDashToken, fParseOptional,
      initialScanState, bareProgValid, specialGroupMatch, specialNameIs, specialAbbrevIs,
      deferOnce, applyOptionEntry, fParseAbbrevChars, optionsEnsure, optionsSet,
      optionsLookup, flagsInsert])
  rw [h2]
  simp +decide [scanErrors, stepErrors, stepOrdinaryErrors, handleDashTokenErrors,
    fParseOptionalErrors, handleGroupTokenErrors, abbrevErrors, stepToken, stepOrdinary,
    handleDashToken, fParseOptional, initialScanState, bareProgValid, specialGroupMatch,
    specialNameIs, specialAbbrevIs, deferOnce, applyOptionEntry, fParseAbbrevChars,
    optionsEnsure, optionsSet, optionsLookup, flagsInsert]

end Arger
